import Mathlib

/-!
# Verification of the pagepipe `crawl` discovery subsystem

This file embeds the discovery subsystem of the pagepipe repository
(`crawl/discover.go`, the BFS queue and the URL rule helpers of package
`crawl`) as executable Lean definitions and proves the frozen claims
about it.

The Go code delegates URL handling to the standard library `net/url`.
The fragment of `net/url` that the crawl package exercises —
`url.Parse`, `URL.String`, `URL.ResolveReference` (with `resolvePath`)
and `path.Ext` — is embedded here over `List Char`, following the
structure of the Go functions.  Scope cuts of the `net/url` model, each
of which only affects inputs outside what the crawl pipeline produces:
percent-escape validation and normalization (`setPath`, `EscapedPath`,
`EscapedFragment` are modelled as the identity), control-character
rejection, and host/port/userinfo character validation
(`parseHost`/`validUserinfo` never fail in the model).  Everything else
(scheme scanning, fragment/query/authority splitting, the opaque/omitrule
host distinctions, the `*` special case, the colon-in-first-segment
error, dot-segment resolution) follows the Go sources.

External effects (the sitemap HTTP fetch + XML decode, the page fetcher
`core.Fetcher`, and the goquery HTML parse) are oracles supplied in an
`Env` structure; the discovery logic itself is translated from
`crawl/discover.go`.
-/

namespace PagePipe

/-! ## List Char utilities (strings helpers used by the Go code) -/

/-- `strings.HasPrefix` over char lists: `beginsWith pre l` is true iff
`pre` is a prefix of `l`. -/
def beginsWith : List Char → List Char → Bool
  | [], _ => true
  | _ :: _, [] => false
  | p :: ps, c :: cs => p == c && beginsWith ps cs

/-- `strings.HasSuffix` over char lists. -/
def finishesWith (suf l : List Char) : Bool :=
  beginsWith suf.reverse l.reverse

/-- `strings.Cut` at the first occurrence of a separator character:
returns `(before, after, found)`; when the separator does not occur the
result is `(l, [], false)`. -/
def cutFirst (sep : Char) : List Char → List Char × List Char × Bool
  | [] => ([], [], false)
  | c :: cs =>
    if c == sep then ([], cs, true)
    else
      let r := cutFirst sep cs
      (c :: r.1, r.2.1, r.2.2)

/-- `strings.TrimSuffix(l, "/")`: removes one trailing `'/'` if present. -/
def trimSlashSuffix (l : List Char) : List Char :=
  if finishesWith ['/'] l then l.dropLast else l

/-- `strings.TrimPrefix(l, "/")`: removes one leading `'/'` if present. -/
def trimSlashStart (l : List Char) : List Char :=
  if beginsWith ['/'] l then l.drop 1 else l

/-- `base[:strings.LastIndex(base, "/")+1]`: everything up to and
including the last `'/'`, or `[]` when there is no slash. -/
def takeToLastSlash (l : List Char) : List Char :=
  ((l.reverse).dropWhile (· ≠ '/')).reverse

/-- `strings.Split` on a one-character separator. -/
def splitOnChar (sep : Char) : List Char → List (List Char)
  | [] => [[]]
  | c :: cs =>
    match splitOnChar sep cs with
    | [] => [[]]
    | h :: t => if c == sep then [] :: h :: t else (c :: h) :: t

/-- `strings.Join` with a one-character separator. -/
def joinChar (sep : Char) : List (List Char) → List Char
  | [] => []
  | [x] => x
  | x :: y :: xs => x ++ sep :: joinChar sep (y :: xs)

/-! ## The `net/url` model -/

/-- The fields of Go's `url.URL` that the crawl package can observe.
`User` is modelled as the raw userinfo text; `Opaque` is renamed to
`opaqueData` (reserved word).  `RawPath`/`RawFragment`/escaping state is
not modelled (see the header comment). -/
structure URL where
  scheme : List Char
  opaqueData : List Char
  user : Option (List Char)
  host : List Char
  path : List Char
  omitHost : Bool
  forceQuery : Bool
  rawQuery : List Char
  fragment : List Char
deriving DecidableEq, Repr

/-- The zero `url.URL`. -/
def emptyURL : URL :=
  { scheme := [], opaqueData := [], user := none, host := [], path := []
    omitHost := false, forceQuery := false, rawQuery := [], fragment := [] }

/-- A character Go's `getScheme` scanner steps over: ASCII letter, digit,
`'+'`, `'-'` or `'.'`. -/
def isSchemeChar (c : Char) : Bool :=
  c.isAlpha || c.isDigit || c == '+' || c == '-' || c == '.'

/-- Worker for `getScheme`: `first` records whether we are at index 0.
Returns `some (scheme, rest)` when a scheme terminated by `':'` is found,
`none` when there is no scheme, mirroring Go's `getScheme` loop. -/
def getSchemeGo : List Char → List Char → Bool →
    Except String (Option (List Char × List Char))
  | [], _, _ => .ok none
  | c :: rest, acc, first =>
    if c.isAlpha then getSchemeGo rest (acc ++ [c]) false
    else if c.isDigit || c == '+' || c == '-' || c == '.' then
      if first then .ok none else getSchemeGo rest (acc ++ [c]) false
    else if c == ':' then
      if first then .error "missing protocol scheme"
      else .ok (some (acc, rest))
    else .ok none

/-- Go `getScheme`: split off a leading `scheme:`; on "no scheme" the
whole input is returned as the remainder. -/
def getScheme (l : List Char) : Except String (List Char × List Char) :=
  match getSchemeGo l [] true with
  | .error e => .error e
  | .ok none => .ok ([], l)
  | .ok (some (s, r)) => .ok (s, r)

/-- The query split of Go `parse`: either the `ForceQuery` case (input
ends in `'?'` and contains no other `'?'`) or `strings.Cut` at the first
`'?'`.  Returns `(rest, forceQuery, rawQuery)`. -/
def querySplit (rest : List Char) : List Char × Bool × List Char :=
  if finishesWith ['?'] rest && !(rest.dropLast.contains '?') then
    (rest.dropLast, true, [])
  else
    let r := cutFirst '?' rest
    (r.1, false, r.2.1)

/-- Go `parseAuthority` (validation not modelled): split the userinfo off
at the last `'@'`. -/
def parseAuthority (authority : List Char) : Option (List Char) × List Char :=
  if authority.contains '@' then
    let r := cutFirst '@' authority.reverse
    (some r.2.1.reverse, r.1.reverse)
  else (none, authority)

/-- The tail of Go `parse` after the scheme and query have been split
off: the opaque / colon-error / authority / path branches. -/
def parseTail (scheme rest : List Char) (fq : Bool) (rq : List Char) :
    Except String URL :=
  if !beginsWith ['/'] rest && scheme != [] then
    .ok { emptyURL with
          scheme := scheme, opaqueData := rest,
          forceQuery := fq, rawQuery := rq }
  else if !beginsWith ['/'] rest && (cutFirst '/' rest).1.contains ':' then
    .error "first path segment in URL cannot contain colon"
  else if (scheme != [] || !beginsWith ['/', '/', '/'] rest) &&
      beginsWith ['/', '/'] rest then
    let rest2 := rest.drop 2
    let ap :=
      if rest2.contains '/' then
        let r := cutFirst '/' rest2
        (r.1, '/' :: r.2.1)
      else (rest2, [])
    let uh := parseAuthority ap.1
    .ok { emptyURL with
          scheme := scheme, user := uh.1, host := uh.2,
          path := ap.2, forceQuery := fq, rawQuery := rq }
  else
    .ok { emptyURL with
          scheme := scheme, path := rest,
          omitHost := scheme != [] && beginsWith ['/'] rest,
          forceQuery := fq, rawQuery := rq }

/-- Go `parse(rawURL, viaRequest := false)` on the fragment-free part. -/
def parseNoFrag (raw : List Char) : Except String URL :=
  if raw == ['*'] then .ok { emptyURL with path := ['*'] }
  else
    match getScheme raw with
    | .error e => .error e
    | .ok (scheme0, rest0) =>
      let q := querySplit rest0
      parseTail (scheme0.map Char.toLower) q.1 q.2.1 q.2.2

/-- Go `url.Parse`: split off the fragment at the first `'#'`, then
parse the remainder. -/
def parseURL (raw : List Char) : Except String URL :=
  let fr := cutFirst '#' raw
  match parseNoFrag fr.1 with
  | .error e => .error e
  | .ok u => .ok { u with fragment := fr.2.1 }

/-- Go `URL.String()` (escaping modelled as the identity). -/
def toStringURL (u : URL) : List Char :=
  let b0 := if u.scheme != [] then u.scheme ++ [':'] else []
  let b1 :=
    if u.opaqueData != [] then b0 ++ u.opaqueData
    else
      let b :=
        if (u.scheme != [] || u.host != [] || u.user.isSome) &&
           !(u.omitHost && u.host == [] && u.user == none) then
          let bb :=
            if u.host != [] || u.path != [] || u.user.isSome then
              b0 ++ ['/', '/']
            else b0
          let bb :=
            match u.user with
            | some ui => bb ++ ui ++ ['@']
            | none => bb
          bb ++ u.host
        else b0
      let b := if u.path != [] && u.path.head? != some '/' && u.host != [] then b ++ ['/'] else b
      let b := if b == [] && (cutFirst '/' u.path).1.contains ':' then b ++ ['.', '/'] else b
      b ++ u.path
  let b2 := if u.forceQuery || u.rawQuery != [] then b1 ++ '?' :: u.rawQuery else b1
  if u.fragment != [] then b2 ++ '#' :: u.fragment else b2

/-- Go `resolvePath`: merge `ref` onto `base` and remove dot segments. -/
def resolvePath (base ref : List Char) : List Char :=
  let full :=
    if ref == [] then base
    else if ref.head? != some '/' then takeToLastSlash base ++ ref
    else ref
  if full == [] then []
  else
    let src := splitOnChar '/' full
    let dst := src.foldl (fun dst elem =>
      if elem == ['.'] then dst
      else if elem == ['.', '.'] then dst.dropLast
      else dst ++ [elem]) []
    let dst :=
      if src.getLast? == some ['.'] || src.getLast? == some ['.', '.'] then
        dst ++ [[]]
      else dst
    '/' :: trimSlashStart (joinChar '/' dst)

/-- Go `URL.ResolveReference`. -/
def ResolveReference (u ref : URL) : URL :=
  let url := { ref with scheme := if ref.scheme == [] then u.scheme else ref.scheme }
  if ref.scheme != [] || ref.host != [] || ref.user.isSome then
    { url with path := resolvePath ref.path [] }
  else if ref.opaqueData != [] then
    { url with user := none, host := [], path := [] }
  else
    let url :=
      if ref.path == [] && !ref.forceQuery && ref.rawQuery == [] then
        { url with
          rawQuery := u.rawQuery,
          fragment := if ref.fragment == [] then u.fragment else ref.fragment }
      else url
    { url with host := u.host, user := u.user, path := resolvePath u.path ref.path }

/-! ## The `crawl` URL rules (`src/unnamed/part_001`) -/

/-- The fixed denylist `staticExtensions` of package `crawl`. -/
def staticExtensions : List (List Char) :=
  [".png".data, ".jpg".data, ".jpeg".data, ".gif".data,
   ".svg".data, ".webp".data, ".ico".data, ".bmp".data,
   ".css".data, ".js".data, ".mjs".data,
   ".woff".data, ".woff2".data, ".ttf".data, ".eot".data,
   ".mp4".data, ".webm".data, ".mp3".data, ".wav".data,
   ".zip".data, ".tar".data, ".gz".data,
   ".pdf".data, ".doc".data, ".docx".data, ".xls".data, ".xlsx".data]

/-- Worker for `pathExt`: scans the reversed path; stops at `'/'`,
returns the extension (including the dot) when a `'.'` is hit first. -/
def pathExtAux : List Char → List Char → List Char
  | [], _ => []
  | c :: rest, acc =>
    if c == '/' then []
    else if c == '.' then c :: acc
    else pathExtAux rest (c :: acc)

/-- Go `path.Ext`: the suffix of the path starting at the final dot in
the final slash-separated element; empty when there is no dot. -/
def pathExt (p : List Char) : List Char :=
  pathExtAux p.reverse []

/-- `crawl.IsSameDomain`: parse, `false` on failure, otherwise exact
host equality. -/
def IsSameDomain (rawURL domain : String) : Bool :=
  match parseURL rawURL.data with
  | .error _ => false
  | .ok parsed => parsed.host == domain.data

/-- `crawl.IsStaticAsset`: parse, `false` on failure, otherwise
membership of the lower-cased path extension in the denylist. -/
def IsStaticAsset (rawURL : String) : Bool :=
  match parseURL rawURL.data with
  | .error _ => false
  | .ok parsed => staticExtensions.contains ((pathExt parsed.path).map Char.toLower)

/-- `crawl.NormalizeURL`: parse (returning the input unchanged on
failure), drop the fragment, strip one trailing slash from any path
other than exactly `"/"`, and serialize. -/
def NormalizeURL (rawURL : String) : String :=
  match parseURL rawURL.data with
  | .error _ => rawURL
  | .ok parsed =>
    let parsed := { parsed with fragment := [] }
    let parsed :=
      if parsed.path != ['/'] then { parsed with path := trimSlashSuffix parsed.path }
      else parsed
    ⟨toStringURL parsed⟩

/-! ## The `crawl` BFS queue (`src/unnamed/part_000`) -/

/-- `crawl.Queue`: the `visited` map is modelled as its list of keys,
which by construction of `Add` carries no duplicates. -/
structure Queue where
  items : List String
  visited : List String
  idx : Nat
deriving DecidableEq, Repr

/-- `crawl.NewQueue`. -/
def NewQueue : Queue := { items := [], visited := [], idx := 0 }

/-- `Queue.Add`: enqueue a URL unless it has been seen before. -/
def Queue.Add (q : Queue) (url : String) : Queue :=
  if q.visited.contains url then q
  else { q with visited := q.visited ++ [url], items := q.items ++ [url] }

/-- `Queue.HasNext`. -/
def Queue.HasNext (q : Queue) : Bool := q.idx < q.items.length

/-- `Queue.Next`: `none` models the index-out-of-range panic of
`q.items[q.idx]`. -/
def Queue.Next (q : Queue) : Option (String × Queue) :=
  match q.items.get? q.idx with
  | some url => some (url, { q with idx := q.idx + 1 })
  | none => none

/-- `Queue.Visited`: the size of the visited set. -/
def Queue.Visited (q : Queue) : Nat := q.visited.length

/-- `Queue.All`. -/
def Queue.All (q : Queue) : List String := q.items

/-! ## The discovery orchestrator (`crawl/discover.go`) -/

/-- The effectful collaborators of `DiscoverAll`, as oracles:
`sitemap u` is the outcome of fetching and XML-decoding `u` (the `loc`
values in document order, or any transport/status/decode error);
`fetch u` is `core.Fetcher.Fetch` (the page HTML, or an error);
`hrefs h` is the goquery document parse of `h` (the `href` attributes of
`a[href]` elements in document order, or an error). -/
structure Env where
  sitemap : String → Except String (List String)
  fetch : String → Except String String
  hrefs : String → Except String (List String)

/-- `crawl.resolveURL`: reject `mailto:`/`javascript:`/`tel:`/fragment
hrefs and parse failures, otherwise resolve against the base and strip
the fragment. -/
def resolveURL (href : String) (base : URL) : String :=
  if beginsWith "mailto:".data href.data || beginsWith "javascript:".data href.data ||
     beginsWith "tel:".data href.data || beginsWith "#".data href.data then ""
  else
    match parseURL href.data with
    | .error _ => ""
    | .ok parsed =>
      let resolved := ResolveReference base parsed
      ⟨toStringURL { resolved with fragment := [] }⟩

/-- `crawl.extractLinks`: resolve every non-empty href of the document
against the page URL, keeping non-empty results in document order.
(Go discards the error of `url.Parse(baseURL)`; the model substitutes
the zero URL, which the pipeline never reaches since every base comes
from `NormalizeURL` of a parsed URL.) -/
def extractLinks (env : Env) (html : String) (baseURL : String) :
    Except String (List String) :=
  match env.hrefs html with
  | .error e => .error e
  | .ok hs =>
    let base :=
      match parseURL baseURL.data with
      | .ok b => b
      | .error _ => emptyURL
    .ok (hs.foldl (fun links href =>
      if href == "" then links
      else
        let resolved := resolveURL href base
        if resolved != "" then links ++ [resolved] else links) [])

/-- `crawl.discoverFromSitemap`, given the decoded `loc` list: keep the
same-domain non-asset candidates, normalized, in document order. -/
def discoverFromSitemap (env : Env) (sitemapURL domain : String) :
    Except String (List String) :=
  match env.sitemap sitemapURL with
  | .error e => .error e
  | .ok locs =>
    .ok (locs.foldl (fun urls loc =>
      if IsSameDomain loc domain && !IsStaticAsset loc then urls ++ [NormalizeURL loc]
      else urls) [])

/-- The BFS page cap of `discoverFromLinks`. -/
def maxPages : Nat := 100

/-- One iteration of the `discoverFromLinks` loop body: dequeue, fetch
(skipping the page on error), extract links (skipping on error), and add
every same-domain non-asset link, normalized.  `none` propagates the
out-of-range panic of `Queue.Next`. -/
def bfsBody (env : Env) (domain : String) (q : Queue) : Option Queue :=
  match q.Next with
  | none => none
  | some (currentURL, q1) =>
    match env.fetch currentURL with
    | .error _ => some q1
    | .ok html =>
      match extractLinks env html currentURL with
      | .error _ => some q1
      | .ok links =>
        some (links.foldl (fun q2 link =>
          if IsSameDomain link domain && !IsStaticAsset link then q2.Add (NormalizeURL link)
          else q2) q1)

/-- The `for queue.HasNext() && queue.Visited() < maxPages` loop.  The
fuel argument only bounds the recursion; `bfsLoop_exits` below proves
that `maxPages` units of fuel always reach the loop's own exit
condition, so the fuelled function computes exactly what the Go loop
does. -/
def bfsLoop (env : Env) (domain : String) : Nat → Queue → Option Queue
  | 0, q => some q
  | fuel + 1, q =>
    if q.HasNext && q.Visited < maxPages then
      match bfsBody env domain q with
      | none => none
      | some q1 => bfsLoop env domain fuel q1
    else some q

/-- `crawl.discoverFromLinks`: seed a fresh queue with the normalized
start URL, run the capped BFS, return everything discovered. -/
def discoverFromLinks (env : Env) (startURL domain : String) :
    Option (List String) :=
  let queue := NewQueue.Add (NormalizeURL startURL)
  (bfsLoop env domain maxPages queue).map Queue.All

/-- The sitemap location built by `DiscoverAll`:
`fmt.Sprintf("%s://%s/sitemap.xml", parsed.Scheme, domain)`. -/
def sitemapURLOf (parsed : URL) : String :=
  ⟨parsed.scheme ++ "://".data ++ parsed.host ++ "/sitemap.xml".data⟩

/-- `crawl.DiscoverAll`: parse the base URL (the only hard failure), try
the sitemap, and fall back to BFS link crawling unless the sitemap
succeeded with at least one URL. -/
def DiscoverAll (env : Env) (baseURL : String) :
    Option (Except String (List String)) :=
  match parseURL baseURL.data with
  | .error e => some (.error ("parsing base URL: " ++ e))
  | .ok parsed =>
    match discoverFromSitemap env (sitemapURLOf parsed) ⟨parsed.host⟩ with
    | .ok urls =>
      if urls.length > 0 then some (.ok urls)
      else (discoverFromLinks env baseURL ⟨parsed.host⟩).map .ok
    | .error _ => (discoverFromLinks env baseURL ⟨parsed.host⟩).map .ok

/-! ## Well-formedness of parsed URLs

`validScheme` and `WF` describe the shape of every `URL` value that
`parseURL` can produce; `WF` is exactly what the serializer needs to be
a right inverse of the parser. -/

/-- The scheme shapes `getScheme` can accept: a leading ASCII letter
followed by scheme characters. -/
def validScheme (s : List Char) : Bool :=
  match s with
  | [] => false
  | c :: cs => c.isAlpha && cs.all isSchemeChar

/-- The invariant satisfied by every output of `parseURL`. -/
structure WF (u : URL) : Prop where
  scheme_ok : u.scheme = [] ∨
    (validScheme u.scheme = true ∧ u.scheme.map Char.toLower = u.scheme)
  opaque_ok : u.opaqueData = [] ∨
    (u.scheme ≠ [] ∧ u.opaqueData.head? ≠ some '/' ∧ u.host = [] ∧
      u.user = none ∧ u.path = [] ∧ u.omitHost = false)
  opaque_hash : '#' ∉ u.opaqueData
  opaque_query : '?' ∉ u.opaqueData
  host_slash : '/' ∉ u.host
  host_query : '?' ∉ u.host
  host_hash : '#' ∉ u.host
  host_at : '@' ∉ u.host
  user_ok : ∀ ui, u.user = some ui → '/' ∉ ui ∧ '?' ∉ ui ∧ '#' ∉ ui
  path_hash : '#' ∉ u.path
  path_query : '?' ∉ u.path
  query_hash : '#' ∉ u.rawQuery
  fq_ok : u.forceQuery = true → u.rawQuery = []
  path_abs : ((u.scheme ≠ [] ∧ u.opaqueData = []) ∨ u.host ≠ [] ∨ u.user ≠ none) →
    u.path = [] ∨ u.path.head? = some '/'
  path_colon : u.scheme = [] ∧ u.host = [] ∧ u.user = none →
    ':' ∉ (cutFirst '/' u.path).1
  path_dslash : u.scheme = [] ∧ u.host = [] ∧ u.user = none ∧ u.opaqueData = [] →
    beginsWith ['/', '/'] u.path = true → beginsWith ['/', '/', '/'] u.path = true
  omit_ok : u.omitHost = true →
    u.scheme ≠ [] ∧ u.host = [] ∧ u.user = none ∧
      u.path.head? = some '/' ∧ beginsWith ['/', '/'] u.path = false

/-- The component-level effect of `NormalizeURL` on a parsed URL. -/
def normMod (u : URL) : URL :=
  let u := { u with fragment := [] }
  if u.path != ['/'] then { u with path := trimSlashSuffix u.path } else u

/-- An input is safe for normalization when it is unparsable or its
parsed path does not end in a double slash. -/
def normSafe (s : String) : Bool :=
  match parseURL s.data with
  | .error _ => true
  | .ok u => !finishesWith ['/', '/'] u.path

/-! ## A concrete 300-page link cycle on `x.com`

`cp 0, cp 1, …, cp 299` are 300 distinct same-domain non-asset URLs,
and `cenv` is the capability under which page `cp i` links exactly to
`cp ((i+1) % 300)`: the successor index is recovered from the URL's
length (`cp 0` has 14 characters, `cp i` has `15 + i`). -/

/-- The path of the `i`-th page: `/` for the seed, `/p` followed by `i`
copies of `a` otherwise. -/
def cpath (i : Nat) : List Char :=
  if i = 0 then ['/'] else '/' :: 'p' :: List.replicate i 'a'

/-- The parsed form of the `i`-th page URL. -/
def cURL (i : Nat) : URL :=
  { emptyURL with scheme := "https".data, host := "x.com".data, path := cpath i }

/-- The `i`-th page URL. -/
def cp (i : Nat) : String := ⟨toStringURL (cURL i)⟩

/-- The cycle successor, recovered from the URL length. -/
def cnext (s : String) : String :=
  if s.data.length = 14 then cp 1
  else if s.data.length - 14 < 300 then cp (s.data.length - 14)
  else cp 0

/-- The capability presenting the 300-page cycle: no sitemap, every
page fetch succeeds (the page body is its own URL), and each page
carries one link, to its cycle successor. -/
def cenv : Env :=
  { sitemap := fun _ => .error "unavailable",
    fetch := fun s => .ok s,
    hrefs := fun h => .ok [cnext h] }

/-! ## Queue lemmas -/

lemma contains_iff_mem {α : Type} [BEq α] [LawfulBEq α] {l : List α} {u : α} :
    l.contains u = true ↔ u ∈ l := by
  simp [List.contains, List.elem_iff]

lemma contains_eq_false_iff {α : Type} [BEq α] [LawfulBEq α] {l : List α} {u : α} :
    l.contains u = false ↔ u ∉ l := by
  rw [← Bool.not_eq_true, not_iff_not]
  exact contains_iff_mem

lemma Add_of_mem {q : Queue} {u : String} (h : u ∈ q.visited) : q.Add u = q := by
  unfold Queue.Add
  rw [if_pos (contains_iff_mem.mpr h)]

lemma Add_of_not_mem {q : Queue} {u : String} (h : u ∉ q.visited) :
    q.Add u = { q with visited := q.visited ++ [u], items := q.items ++ [u] } := by
  unfold Queue.Add
  rw [if_neg (fun hc => h (contains_iff_mem.mp hc))]

/-- The state reached by folding `Add` over any sequence of URLs:
visited keys and items coincide, the cursor is untouched, membership is
membership in the adds, and the items are ordered by first-add index. -/
lemma addAll_inv (xs : List String) :
    (xs.foldl Queue.Add NewQueue).visited = (xs.foldl Queue.Add NewQueue).items ∧
    (xs.foldl Queue.Add NewQueue).idx = 0 ∧
    (∀ u, u ∈ (xs.foldl Queue.Add NewQueue).items ↔ u ∈ xs) ∧
    (xs.foldl Queue.Add NewQueue).items.Pairwise
      (fun a b => xs.indexOf a < xs.indexOf b) := by
  induction xs using List.reverseRecOn with
  | nil => simp [NewQueue]
  | append_singleton xs u ih =>
    obtain ⟨hv, hi, hm, hp⟩ := ih
    rw [List.foldl_append, List.foldl_cons, List.foldl_nil]
    set q := xs.foldl Queue.Add NewQueue with hq
    by_cases hmem : u ∈ q.visited
    · have humem : u ∈ xs := (hm u).mp (hv ▸ hmem)
      rw [Add_of_mem hmem]
      refine ⟨hv, hi, fun w => ?_, ?_⟩
      · rw [hm w]
        constructor
        · exact fun h => List.mem_append_left _ h
        · intro h
          rcases List.mem_append.mp h with h | h
          · exact h
          · rwa [List.mem_singleton.mp h]
      · refine hp.imp_of_mem ?_
        intro a b ha hb hab
        have haxs : a ∈ xs := (hm a).mp ha
        have hbxs : b ∈ xs := (hm b).mp hb
        rwa [List.indexOf_append_of_mem haxs, List.indexOf_append_of_mem hbxs]
    · have hunew : u ∉ xs := fun h => hmem (hv ▸ (hm u).mpr h)
      rw [Add_of_not_mem hmem]
      refine ⟨by simp [hv], hi, fun w => ?_, ?_⟩
      · simp only [List.mem_append, List.mem_singleton]
        rw [hm w]
      · rw [List.pairwise_append]
        refine ⟨hp.imp_of_mem ?_, List.pairwise_singleton _ _, ?_⟩
        · intro a b ha hb hab
          have haxs : a ∈ xs := (hm a).mp ha
          have hbxs : b ∈ xs := (hm b).mp hb
          rwa [List.indexOf_append_of_mem haxs, List.indexOf_append_of_mem hbxs]
        · intro a ha b hb
          rw [List.mem_singleton.mp hb]
          have haxs : a ∈ xs := (hm a).mp ha
          rw [List.indexOf_append_of_mem haxs, List.indexOf_append_of_not_mem hunew]
          calc xs.indexOf a < xs.length := List.indexOf_lt_length.mpr haxs
            _ ≤ xs.length + List.indexOf u [u] := Nat.le_add_right _ _

/-- C3: for every finite sequence of `Add` calls on a fresh Frontier
queue, `All()` contains each distinct URL exactly once, ordered by each
URL's first `Add` (strictly increasing first-occurrence indices);
adding an already-added URL changes nothing; and `Visited()` equals the
length of `All()`. -/
theorem claim_C3 (xs : List String) :
    (xs.foldl Queue.Add NewQueue).All.Nodup ∧
    (∀ u, u ∈ (xs.foldl Queue.Add NewQueue).All ↔ u ∈ xs) ∧
    (xs.foldl Queue.Add NewQueue).All.Pairwise
      (fun a b => xs.indexOf a < xs.indexOf b) ∧
    (∀ u, u ∈ xs → (xs.foldl Queue.Add NewQueue).Add u = xs.foldl Queue.Add NewQueue) ∧
    (xs.foldl Queue.Add NewQueue).Visited = (xs.foldl Queue.Add NewQueue).All.length := by
  obtain ⟨hv, _, hm, hp⟩ := addAll_inv xs
  refine ⟨?_, hm, hp, ?_, ?_⟩
  · exact hp.imp fun {a b} h => fun hab => by subst hab; exact Nat.lt_irrefl _ h
  · intro u hu
    exact Add_of_mem (hv ▸ (hm u).mpr hu)
  · simp [Queue.Visited, Queue.All, hv]

/-- Witness for C3 at the spec's own example `a, b, a, c`. -/
theorem claim_C3_witness :
    ((["a", "b", "a", "c"].foldl Queue.Add NewQueue).All.Nodup ∧
      ("b" ∈ (["a", "b", "a", "c"].foldl Queue.Add NewQueue).All ↔
        "b" ∈ ["a", "b", "a", "c"]) ∧
      (["a", "b", "a", "c"].foldl Queue.Add NewQueue).Visited =
        (["a", "b", "a", "c"].foldl Queue.Add NewQueue).All.length) ∧
    (["a", "b", "a", "c"].foldl Queue.Add NewQueue).All = ["a", "b", "c"] := by
  refine ⟨⟨(claim_C3 ["a", "b", "a", "c"]).1,
    (claim_C3 ["a", "b", "a", "c"]).2.1 "b",
    (claim_C3 ["a", "b", "a", "c"]).2.2.2.2⟩, by decide⟩

/-! ## Panic-freedom of the BFS loop -/

lemma Next_of_hasNext {q : Queue} (h : q.HasNext = true) :
    q.idx < q.items.length ∧
      q.Next = some (q.items.getD q.idx "", { q with idx := q.idx + 1 }) := by
  have hlt : q.idx < q.items.length := by
    simpa [Queue.HasNext, decide_eq_true_eq] using h
  refine ⟨hlt, ?_⟩
  unfold Queue.Next
  rw [List.get?_eq_get hlt]
  simp [List.getD_eq_getElem?_getD, List.getElem?_eq_getElem hlt, List.get_eq_getElem]

lemma bfsBody_isSome (env : Env) (domain : String) (q : Queue)
    (h : q.HasNext = true) : (bfsBody env domain q).isSome = true := by
  obtain ⟨hlt, hnext⟩ := Next_of_hasNext h
  unfold bfsBody
  rw [hnext]
  cases hf : env.fetch (q.items.getD q.idx "") with
  | error e => simp only [hf, Option.isSome_some]
  | ok html =>
    cases hx : extractLinks env html (q.items.getD q.idx "") with
    | error e => simp only [hf, hx, Option.isSome_some]
    | ok links => simp only [hf, hx, Option.isSome_some]

lemma bfsLoop_isSome (env : Env) (domain : String) (fuel : Nat) (q : Queue) :
    (bfsLoop env domain fuel q).isSome = true := by
  induction fuel generalizing q with
  | zero => rfl
  | succ n ih =>
    rw [bfsLoop]
    by_cases hg : (q.HasNext && decide (q.Visited < maxPages)) = true
    · rw [if_pos hg]
      have hn : q.HasNext = true := by
        rcases Bool.and_eq_true_iff.mp hg with ⟨h1, _⟩
        exact h1
      obtain ⟨q1, hq1⟩ := Option.isSome_iff_exists.mp (bfsBody_isSome env domain q hn)
      rw [hq1]
      exact ih q1
    · rw [if_neg hg]
      rfl

/-- C9: whenever `HasNext()` holds, the cursor is an in-bounds index
into the ordered sequence (so `Next()`'s out-of-range branch is
unreachable), `Next()` returns the URL at the cursor and advances the
cursor by exactly one; and the BFS loop — the orchestrator's only call
site of `Next()`, guarded by `HasNext()` — never hits the panic case,
for every fetch capability. -/
theorem claim_C9 :
    (∀ q : Queue, q.HasNext = true →
      q.idx < q.items.length ∧
        q.Next = some (q.items.getD q.idx "", { q with idx := q.idx + 1 })) ∧
    (∀ (env : Env) (startURL domain : String),
        (discoverFromLinks env startURL domain).isSome = true) := by
  refine ⟨fun q h => Next_of_hasNext h, fun env startURL domain => ?_⟩
  simp only [discoverFromLinks]
  obtain ⟨q1, hq1⟩ := Option.isSome_iff_exists.mp
    (bfsLoop_isSome env domain maxPages (NewQueue.Add (NormalizeURL startURL)))
  rw [hq1]
  rfl

/-- Witness for C9 at a one-element queue and a trivial environment. -/
theorem claim_C9_witness :
    ((0 : Nat) < (1 : Nat) ∧
      Queue.Next { items := ["a"], visited := ["a"], idx := 0 } =
        some ("a", { items := ["a"], visited := ["a"], idx := 1 })) ∧
    (discoverFromLinks
        { sitemap := fun _ => .error "", fetch := fun _ => .error "",
          hrefs := fun _ => .error "" } "https://x.com/" "x.com").isSome = true := by
  constructor
  · have h := claim_C9.1 { items := ["a"], visited := ["a"], idx := 0 } (by decide)
    simpa using h
  · exact claim_C9.2 _ "https://x.com/" "x.com"

/-! ## Sitemap-path and fallback-path control flow -/

lemma discoverFromSitemap_congr {env env' : Env} (h : env'.sitemap = env.sitemap)
    (s d : String) : discoverFromSitemap env' s d = discoverFromSitemap env s d := by
  unfold discoverFromSitemap
  rw [h]

lemma sitemap_foldl (domain : String) (locs : List String) (acc : List String) :
    locs.foldl (fun urls loc =>
        if IsSameDomain loc domain && !IsStaticAsset loc then urls ++ [NormalizeURL loc]
        else urls) acc =
      acc ++ (locs.filter fun loc => IsSameDomain loc domain && !IsStaticAsset loc).map
        NormalizeURL := by
  induction locs generalizing acc with
  | nil => simp
  | cons x xs ih =>
    rw [List.foldl_cons]
    by_cases hx : (IsSameDomain x domain && !IsStaticAsset x) = true
    · rw [if_pos hx, ih]
      simp [List.filter_cons, hx]
    · rw [if_neg hx, ih]
      simp [List.filter_cons, hx]

/-- C7: on a successful sitemap fetch and decode, the sitemap reader
returns exactly the candidates passing `IsSameDomain` and not
`IsStaticAsset`, each normalized, in document order. -/
theorem claim_C7 (env : Env) (sitemapURL domain : String) (locs : List String)
    (h : env.sitemap sitemapURL = .ok locs) :
    discoverFromSitemap env sitemapURL domain =
      .ok ((locs.filter fun loc => IsSameDomain loc domain && !IsStaticAsset loc).map
        NormalizeURL) := by
  simp only [discoverFromSitemap, h]
  rw [sitemap_foldl]
  simp

/-- Witness for C7 at the spec's sitemap scenario: three same-domain
URLs and one cross-domain URL. -/
theorem claim_C7_witness :
    discoverFromSitemap
        { sitemap := fun _ =>
            .ok ["https://x.com/a/", "https://x.com/b#f", "https://x.com/c", "https://y.com/d"],
          fetch := fun _ => .error "", hrefs := fun _ => .error "" }
        "https://x.com/sitemap.xml" "x.com" =
      .ok ["https://x.com/a", "https://x.com/b", "https://x.com/c"] := by
  rw [claim_C7 _ _ _ _ rfl]
  rfl

/-- C1: `DiscoverAll` returns the sitemap reader's result — without
consulting the fetch capability — exactly when the sitemap call
succeeds with a non-empty (filtered) list; in every other case it
returns the BFS fallback from the starting URL. -/
theorem claim_C1 (env : Env) (baseURL : String) (pu : URL)
    (hparse : parseURL baseURL.data = .ok pu) :
    (∀ urls, discoverFromSitemap env (sitemapURLOf pu) ⟨pu.host⟩ = .ok urls → urls ≠ [] →
      DiscoverAll env baseURL = some (.ok urls) ∧
      ∀ env' : Env, env'.sitemap = env.sitemap →
        DiscoverAll env' baseURL = some (.ok urls)) ∧
    ((∀ urls, discoverFromSitemap env (sitemapURLOf pu) ⟨pu.host⟩ = .ok urls → urls = []) →
      DiscoverAll env baseURL = (discoverFromLinks env baseURL ⟨pu.host⟩).map .ok) := by
  constructor
  · intro urls hsm hne
    have hlen : urls.length > 0 := List.length_pos.mpr hne
    constructor
    · simp only [DiscoverAll, hparse, hsm, if_pos hlen]
    · intro env' hsitemap
      simp only [DiscoverAll, hparse, discoverFromSitemap_congr hsitemap, hsm, if_pos hlen]
  · intro hall
    cases hsm : discoverFromSitemap env (sitemapURLOf pu) ⟨pu.host⟩ with
    | error e => simp only [DiscoverAll, hparse, hsm]
    | ok urls =>
      have : urls = [] := hall urls hsm
      subst this
      simp only [DiscoverAll, hparse, hsm, if_neg (by simp : ¬(([] : List String).length > 0))]

/-- Witness for C1: a sitemap with one good URL wins over a fetch
capability that would fail every page. -/
theorem claim_C1_witness :
    DiscoverAll
        { sitemap := fun _ => .ok ["https://x.com/a/"],
          fetch := fun _ => .error "", hrefs := fun _ => .error "" }
        "https://x.com/" =
      some (.ok ["https://x.com/a"]) := by
  have h := (claim_C1
    { sitemap := fun _ => .ok ["https://x.com/a/"],
      fetch := fun _ => .error "", hrefs := fun _ => .error "" }
    "https://x.com/" _ rfl).1 ["https://x.com/a"] (by rfl) (by simp)
  exact h.1

lemma discoverFromLinks_eq_some (env : Env) (startURL domain : String) :
    ∃ l, discoverFromLinks env startURL domain = some l := by
  obtain ⟨qf, hqf⟩ := Option.isSome_iff_exists.mp
    (bfsLoop_isSome env domain maxPages (NewQueue.Add (NormalizeURL startURL)))
  exact ⟨qf.All, by simp only [discoverFromLinks]; rw [hqf]; rfl⟩

/-- C5: `DiscoverAll` returns an error exactly when the starting URL
itself fails to parse; per-page fetch and link-extraction failures in
the BFS never surface as an error. -/
theorem claim_C5 (env : Env) (baseURL : String) :
    ∃ r, DiscoverAll env baseURL = some r ∧
      ((∃ e, r = .error e) ↔ ∃ e, parseURL baseURL.data = .error e) := by
  cases hp : parseURL baseURL.data with
  | error e =>
    refine ⟨.error ("parsing base URL: " ++ e), ?_, by simp [hp]⟩
    simp only [DiscoverAll, hp]
  | ok pu =>
    have hok : ∃ l, DiscoverAll env baseURL = some (.ok l) := by
      cases hsm : discoverFromSitemap env (sitemapURLOf pu) ⟨pu.host⟩ with
      | error e =>
        obtain ⟨l, hl⟩ := discoverFromLinks_eq_some env baseURL ⟨pu.host⟩
        exact ⟨l, by simp only [DiscoverAll, hp, hsm, hl]; rfl⟩
      | ok urls =>
        by_cases hlen : urls.length > 0
        · exact ⟨urls, by simp only [DiscoverAll, hp, hsm, if_pos hlen]⟩
        · obtain ⟨l, hl⟩ := discoverFromLinks_eq_some env baseURL ⟨pu.host⟩
          exact ⟨l, by simp only [DiscoverAll, hp, hsm, if_neg hlen, hl]; rfl⟩
    obtain ⟨l, hl⟩ := hok
    exact ⟨.ok l, hl, by simp [hp]⟩

/-- Witness for C5: a page-level fetch failure everywhere still yields a
successful (non-error) discovery result. -/
theorem claim_C5_witness :
    ∃ r, DiscoverAll
        { sitemap := fun _ => .error "status 404", fetch := fun _ => .error "boom",
          hrefs := fun _ => .error "" } "https://x.com/" = some r ∧
      ((∃ e, r = .error e) ↔ ∃ e, parseURL "https://x.com/".data = .error e) :=
  claim_C5 _ "https://x.com/"

/-! ## The seed stays first on the fallback path -/

lemma Add_items_extend (q : Queue) (u : String) :
    ∃ t, (q.Add u).items = q.items ++ t := by
  unfold Queue.Add
  split
  · exact ⟨[], by simp⟩
  · exact ⟨[u], rfl⟩

lemma addLinks_items_extend (domain : String) (links : List String) (q : Queue) :
    ∃ t, (links.foldl (fun q2 link =>
        if IsSameDomain link domain && !IsStaticAsset link then q2.Add (NormalizeURL link)
        else q2) q).items = q.items ++ t := by
  induction links generalizing q with
  | nil => exact ⟨[], by simp⟩
  | cons x xs ih =>
    rw [List.foldl_cons]
    by_cases hx : (IsSameDomain x domain && !IsStaticAsset x) = true
    · rw [if_pos hx]
      obtain ⟨t1, ht1⟩ := Add_items_extend q (NormalizeURL x)
      obtain ⟨t2, ht2⟩ := ih (q.Add (NormalizeURL x))
      exact ⟨t1 ++ t2, by rw [ht2, ht1, List.append_assoc]⟩
    · rw [if_neg hx]
      exact ih q

lemma bfsBody_items_extend {env : Env} {domain : String} {q q1 : Queue}
    (h : bfsBody env domain q = some q1) : ∃ t, q1.items = q.items ++ t := by
  unfold bfsBody at h
  cases hn : q.Next with
  | none => rw [hn] at h; exact absurd h (by simp)
  | some p =>
    obtain ⟨url, q'⟩ := p
    have hq' : q'.items = q.items := by
      unfold Queue.Next at hn
      cases hg : q.items.get? q.idx with
      | none => rw [hg] at hn; exact absurd hn (by simp)
      | some u => rw [hg] at hn; cases hn; rfl
    simp only [hn] at h
    cases hf : env.fetch url with
    | error e =>
      simp only [hf] at h
      cases h
      exact ⟨[], by simp [hq']⟩
    | ok html =>
      simp only [hf] at h
      cases hx : extractLinks env html url with
      | error e =>
        simp only [hx] at h
        cases h
        exact ⟨[], by simp [hq']⟩
      | ok links =>
        simp only [hx] at h
        cases h
        obtain ⟨t, ht⟩ := addLinks_items_extend domain links q'
        exact ⟨t, by rw [ht, hq']⟩

lemma bfsLoop_items_extend {env : Env} {domain : String} {fuel : Nat} {q qf : Queue}
    (h : bfsLoop env domain fuel q = some qf) : ∃ t, qf.items = q.items ++ t := by
  induction fuel generalizing q with
  | zero =>
    cases h
    exact ⟨[], by simp⟩
  | succ n ih =>
    rw [bfsLoop] at h
    by_cases hg : (q.HasNext && decide (q.Visited < maxPages)) = true
    · rw [if_pos hg] at h
      cases hb : bfsBody env domain q with
      | none => rw [hb] at h; exact absurd h (by simp)
      | some q1 =>
        rw [hb] at h
        obtain ⟨t1, ht1⟩ := bfsBody_items_extend hb
        obtain ⟨t2, ht2⟩ := ih h
        exact ⟨t1 ++ t2, by rw [ht2, ht1, List.append_assoc]⟩
    · rw [if_neg hg] at h
      cases h
      exact ⟨[], by simp⟩

lemma seed_items : ∀ u : String, (NewQueue.Add u).items = [u] := fun _ => rfl

/-- C10: whenever the fallback path is taken and the starting URL
parses, the discovery result is non-empty and its first element is
`NormalizeURL startURL` — for every fetch capability, even when the
seed is a static asset. -/
theorem claim_C10 (env : Env) (startURL : String)
    (hparse : ∃ pu, parseURL startURL.data = .ok pu)
    (hfb : ∀ pu, parseURL startURL.data = .ok pu →
      ∀ urls, discoverFromSitemap env (sitemapURLOf pu) ⟨pu.host⟩ = .ok urls → urls = []) :
    ∃ l, DiscoverAll env startURL = some (.ok l) ∧ l ≠ [] ∧
      l.head? = some (NormalizeURL startURL) := by
  obtain ⟨pu, hp⟩ := hparse
  obtain ⟨qf, hqf⟩ := Option.isSome_iff_exists.mp
    (bfsLoop_isSome env ⟨pu.host⟩ maxPages (NewQueue.Add (NormalizeURL startURL)))
  obtain ⟨t, ht⟩ := bfsLoop_items_extend hqf
  rw [seed_items] at ht
  have hlinks : discoverFromLinks env startURL ⟨pu.host⟩ =
      some (NormalizeURL startURL :: t) := by
    simp only [discoverFromLinks]
    rw [hqf]
    simp [Queue.All, ht]
  refine ⟨NormalizeURL startURL :: t, ?_, by simp, by simp⟩
  cases hsm : discoverFromSitemap env (sitemapURLOf pu) ⟨pu.host⟩ with
  | error e => simp only [DiscoverAll, hp, hsm, hlinks]; rfl
  | ok urls =>
    have : urls = [] := hfb pu hp urls hsm
    subst this
    simp only [DiscoverAll, hp, hsm,
      if_neg (by simp : ¬(([] : List String).length > 0)), hlinks]
    rfl

/-- Witness for C10: the seed is a static asset (`.pdf`), every fetch
fails, and the result still starts with (indeed, is exactly) the seed. -/
theorem claim_C10_witness :
    (∃ l, DiscoverAll
        { sitemap := fun _ => .error "no sitemap", fetch := fun _ => .error "down",
          hrefs := fun _ => .error "" } "https://x.com/a.pdf" = some (.ok l) ∧
      l ≠ [] ∧ l.head? = some (NormalizeURL "https://x.com/a.pdf")) ∧
    IsStaticAsset "https://x.com/a.pdf" = true := by
  constructor
  · refine claim_C10 _ "https://x.com/a.pdf" ⟨_, rfl⟩ ?_
    intro pu hpu urls hurls
    exact absurd hurls (by simp [discoverFromSitemap])
  · decide

/-! ## The link resolver -/

/-- C8: the resolver emits nothing for `mailto:`/`javascript:`/`tel:`/
fragment-only hrefs and for hrefs that fail to parse; otherwise it
emits the href resolved against the base by `ResolveReference` with the
fragment stripped — in particular `../intro` against
`https://x.com/docs/` yields `https://x.com/intro`. -/
theorem claim_C8 :
    (∀ (href : String) (base : URL),
      (beginsWith "mailto:".data href.data || beginsWith "javascript:".data href.data ||
        beginsWith "tel:".data href.data || beginsWith "#".data href.data) = true →
      resolveURL href base = "") ∧
    (∀ (href : String) (base : URL) (e : String),
      parseURL href.data = .error e → resolveURL href base = "") ∧
    (∀ (href : String) (base : URL) (parsed : URL),
      (beginsWith "mailto:".data href.data || beginsWith "javascript:".data href.data ||
        beginsWith "tel:".data href.data || beginsWith "#".data href.data) = false →
      parseURL href.data = .ok parsed →
      resolveURL href base = ⟨toStringURL { ResolveReference base parsed with fragment := [] }⟩) ∧
    (parseURL "https://x.com/docs/".data).map (resolveURL "../intro") =
      .ok "https://x.com/intro" := by
  refine ⟨?_, ?_, ?_, by rfl⟩
  · intro href base h
    unfold resolveURL
    rw [if_pos h]
  · intro href base e h
    unfold resolveURL
    by_cases hpre : (beginsWith "mailto:".data href.data ||
        beginsWith "javascript:".data href.data ||
        beginsWith "tel:".data href.data || beginsWith "#".data href.data) = true
    · rw [if_pos hpre]
    · rw [if_neg hpre]
      simp only [h]
  · intro href base parsed hpre h
    unfold resolveURL
    rw [if_neg (by simp [hpre])]
    simp only [h]

/-- Witness for C8 at the spec's own href examples. -/
theorem claim_C8_witness :
    resolveURL "mailto:a@b.com" emptyURL = "" ∧
    resolveURL "#section" emptyURL = "" ∧
    resolveURL ":no-scheme" emptyURL = "" ∧
    (parseURL "https://x.com/docs/".data).map (resolveURL "../intro") =
      .ok "https://x.com/intro" := by
  refine ⟨claim_C8.1 "mailto:a@b.com" emptyURL (by decide),
    claim_C8.1 "#section" emptyURL (by decide),
    claim_C8.2.1 ":no-scheme" emptyURL "missing protocol scheme" (by rfl),
    claim_C8.2.2.2⟩

/-! ## Character facts -/

lemma uint32_le_iff (a b : UInt32) : (a ≤ b) ↔ a.toNat ≤ b.toNat := by
  rw [UInt32.le_def]
  exact BitVec.le_def

lemma char_eq_iff_toNat {c d : Char} : c = d ↔ c.toNat = d.toNat := by
  constructor
  · intro h
    rw [h]
  · intro h
    apply Char.eq_of_val_eq
    apply UInt32.eq_of_toBitVec_eq
    apply BitVec.eq_of_toNat_eq
    exact h

lemma isUpper_iff {c : Char} : c.isUpper = true ↔ 65 ≤ c.toNat ∧ c.toNat ≤ 90 := by
  simp [Char.isUpper, uint32_le_iff, Char.toNat, UInt32.size]

lemma isLower_iff {c : Char} : c.isLower = true ↔ 97 ≤ c.toNat ∧ c.toNat ≤ 122 := by
  simp [Char.isLower, uint32_le_iff, Char.toNat, UInt32.size]

lemma isDigit_iff {c : Char} : c.isDigit = true ↔ 48 ≤ c.toNat ∧ c.toNat ≤ 57 := by
  simp [Char.isDigit, uint32_le_iff, Char.toNat, UInt32.size]

lemma isAlpha_iff {c : Char} :
    c.isAlpha = true ↔ (65 ≤ c.toNat ∧ c.toNat ≤ 90) ∨ (97 ≤ c.toNat ∧ c.toNat ≤ 122) := by
  simp [Char.isAlpha, isUpper_iff, isLower_iff]

lemma isSchemeChar_iff {c : Char} :
    isSchemeChar c = true ↔
      (65 ≤ c.toNat ∧ c.toNat ≤ 90) ∨ (97 ≤ c.toNat ∧ c.toNat ≤ 122) ∨
      (48 ≤ c.toNat ∧ c.toNat ≤ 57) ∨ c.toNat = 43 ∨ c.toNat = 45 ∨ c.toNat = 46 := by
  have h1 : ('+').toNat = 43 := rfl
  have h2 : ('-').toNat = 45 := rfl
  have h3 : ('.').toNat = 46 := rfl
  simp only [isSchemeChar, Bool.or_eq_true, isAlpha_iff, isDigit_iff, beq_iff_eq,
    char_eq_iff_toNat, h1, h2, h3]
  omega

lemma isSchemeChar_ne {c : Char} (h : isSchemeChar c = true) :
    c ≠ ':' ∧ c ≠ '/' ∧ c ≠ '?' ∧ c ≠ '#' ∧ c ≠ '@' ∧ c ≠ '*' := by
  have hn := isSchemeChar_iff.mp h
  refine ⟨?_, ?_, ?_, ?_, ?_, ?_⟩ <;>
    · rintro rfl
      exact absurd hn (by decide)

lemma toNat_ofNat_valid {n : Nat} (h : n < 55296) : (Char.ofNat n).toNat = n := by
  rw [Char.ofNat, dif_pos (Or.inl h)]
  rfl

lemma toLower_toNat_of_upper {c : Char} (h1 : 65 ≤ c.toNat) (h2 : c.toNat ≤ 90) :
    (Char.toLower c).toNat = c.toNat + 32 := by
  unfold Char.toLower
  rw [if_pos ⟨h1, h2⟩]
  exact toNat_ofNat_valid (by omega)

lemma toLower_of_not_upper {c : Char} (h : ¬(65 ≤ c.toNat ∧ c.toNat ≤ 90)) :
    Char.toLower c = c := by
  unfold Char.toLower
  rw [if_neg h]

lemma toLower_idem (c : Char) : c.toLower.toLower = c.toLower := by
  by_cases h : 65 ≤ c.toNat ∧ c.toNat ≤ 90
  · have h1 := toLower_toNat_of_upper h.1 h.2
    apply toLower_of_not_upper
    omega
  · rw [toLower_of_not_upper h, toLower_of_not_upper h]

lemma map_toLower_idem (s : List Char) :
    (s.map Char.toLower).map Char.toLower = s.map Char.toLower := by
  rw [List.map_map]
  exact List.map_congr_left fun c _ => toLower_idem c

lemma isSchemeChar_toLower {c : Char} (h : isSchemeChar c = true) :
    isSchemeChar c.toLower = true := by
  rw [isSchemeChar_iff] at h ⊢
  by_cases hu : 65 ≤ c.toNat ∧ c.toNat ≤ 90
  · have h1 := toLower_toNat_of_upper hu.1 hu.2
    omega
  · rw [toLower_of_not_upper hu]
    exact h

lemma isAlpha_toLower {c : Char} (h : c.isAlpha = true) :
    Char.isAlpha c.toLower = true := by
  rw [isAlpha_iff] at h ⊢
  by_cases hu : 65 ≤ c.toNat ∧ c.toNat ≤ 90
  · have h1 := toLower_toNat_of_upper hu.1 hu.2
    omega
  · rw [toLower_of_not_upper hu]
    exact h

lemma validScheme_toLower {s : List Char} (h : validScheme s = true) :
    validScheme (s.map Char.toLower) = true := by
  cases s with
  | nil => exact absurd h (by simp [validScheme])
  | cons c cs =>
    simp only [validScheme, Bool.and_eq_true, List.all_eq_true, List.map_cons] at h ⊢
    exact ⟨isAlpha_toLower h.1, fun x hx => by
      obtain ⟨y, hy, rfl⟩ := List.mem_map.mp hx
      exact isSchemeChar_toLower (h.2 y hy)⟩

/-! ## Splitting-function facts -/

lemma beginsWith_iff {p l : List Char} : beginsWith p l = true ↔ ∃ t, l = p ++ t := by
  induction p generalizing l with
  | nil => simp [beginsWith]
  | cons x xs ih =>
    cases l with
    | nil => simp [beginsWith]
    | cons c cs =>
      simp only [beginsWith, Bool.and_eq_true, beq_iff_eq, ih, List.cons_append]
      constructor
      · rintro ⟨rfl, t, rfl⟩
        exact ⟨t, rfl⟩
      · rintro ⟨t, he⟩
        rw [List.cons_eq_cons] at he
        exact ⟨he.1.symm, t, he.2⟩

lemma beginsWith_false_iff {p l : List Char} :
    beginsWith p l = false ↔ ¬∃ t, l = p ++ t := by
  rw [← Bool.not_eq_true, not_iff_not]
  exact beginsWith_iff

lemma finishesWith_iff {s l : List Char} : finishesWith s l = true ↔ ∃ t, l = t ++ s := by
  unfold finishesWith
  rw [beginsWith_iff]
  constructor
  · rintro ⟨t, ht⟩
    refine ⟨t.reverse, ?_⟩
    have := congrArg List.reverse ht
    simpa using this
  · rintro ⟨t, rfl⟩
    exact ⟨t.reverse, by simp⟩

lemma cutFirst_of_not_mem {c : Char} {l : List Char} (h : c ∉ l) :
    cutFirst c l = (l, [], false) := by
  induction l with
  | nil => rfl
  | cons x xs ih =>
    have hx : ¬(x == c) = true := by
      simp only [beq_iff_eq]
      rintro rfl
      exact h (List.mem_cons_self _ _)
    simp only [cutFirst, if_neg hx, ih (fun hm => h (List.mem_cons_of_mem _ hm))]

lemma cutFirst_app {c : Char} {a b : List Char} (h : c ∉ a) :
    cutFirst c (a ++ c :: b) = (a, b, true) := by
  induction a with
  | nil => simp [cutFirst]
  | cons x xs ih =>
    have hx : ¬(x == c) = true := by
      simp only [beq_iff_eq]
      rintro rfl
      exact h (List.mem_cons_self _ _)
    simp only [List.cons_append, cutFirst, if_neg hx, List.append_eq,
      ih (fun hm => h (List.mem_cons_of_mem _ hm))]

lemma cutFirst_decomp (c : Char) (l : List Char) :
    ((cutFirst c l).2.2 = true ∧ l = (cutFirst c l).1 ++ c :: (cutFirst c l).2.1 ∧
      c ∉ (cutFirst c l).1) ∨
    ((cutFirst c l).2.2 = false ∧ (cutFirst c l).1 = l ∧ (cutFirst c l).2.1 = [] ∧
      c ∉ l) := by
  induction l with
  | nil => exact Or.inr ⟨rfl, rfl, rfl, List.not_mem_nil c⟩
  | cons x xs ih =>
    by_cases hx : (x == c) = true
    · rw [beq_iff_eq] at hx
      subst hx
      left
      simp [cutFirst]
    · simp only [cutFirst, if_neg hx]
      rw [beq_iff_eq] at hx
      rcases ih with ⟨h1, h2, h3⟩ | ⟨h1, h2, h3, h4⟩
      · left
        refine ⟨h1, ?_, ?_⟩
        · rw [List.cons_append]
          conv_lhs => rw [h2]
        · simp only [List.mem_cons, not_or]
          exact ⟨fun he => hx he.symm, h3⟩
      · right
        refine ⟨h1, by rw [h2], h3, ?_⟩
        simp only [List.mem_cons, not_or]
        exact ⟨fun he => hx he.symm, h4⟩

lemma mem_cutFirst_fst {c x : Char} {l : List Char} (h : x ∈ (cutFirst c l).1) : x ∈ l := by
  rcases cutFirst_decomp c l with ⟨_, h2, _⟩ | ⟨_, h2, _, _⟩
  · rw [h2]
    exact List.mem_append_left _ h
  · rwa [h2] at h

lemma mem_cutFirst_snd {c x : Char} {l : List Char} (h : x ∈ (cutFirst c l).2.1) : x ∈ l := by
  rcases cutFirst_decomp c l with ⟨_, h2, _⟩ | ⟨_, _, h3, _⟩
  · rw [h2]
    exact List.mem_append_right _ (List.mem_cons_of_mem _ h)
  · rw [h3] at h
    exact absurd h (List.not_mem_nil x)

lemma not_mem_cutFirst_fst (c : Char) (l : List Char) : c ∉ (cutFirst c l).1 := by
  rcases cutFirst_decomp c l with ⟨_, _, h3⟩ | ⟨_, h2, _, h4⟩
  · exact h3
  · rw [h2]
    exact h4

lemma querySplit_no_query {l : List Char} (h : '?' ∉ l) :
    querySplit l = (l, false, []) := by
  have hcond : ¬((finishesWith ['?'] l && !(l.dropLast.contains '?')) = true) := by
    intro hb
    obtain ⟨hf, -⟩ := Bool.and_eq_true_iff.mp hb
    obtain ⟨t, rfl⟩ := finishesWith_iff.mp hf
    exact h (List.mem_append_right _ (List.mem_singleton.mpr rfl))
  unfold querySplit
  rw [if_neg hcond, cutFirst_of_not_mem h]

lemma querySplit_force {l : List Char} (h : '?' ∉ l) :
    querySplit (l ++ ['?']) = (l, true, []) := by
  have hfin : finishesWith ['?'] (l ++ ['?']) = true := finishesWith_iff.mpr ⟨l, rfl⟩
  have hdrop : (l ++ ['?']).dropLast = l := by simp
  have hcont : l.contains '?' = false := contains_eq_false_iff.mpr h
  unfold querySplit
  rw [if_pos (by rw [hfin, hdrop, hcont]; rfl), hdrop]

lemma querySplit_query {l q : List Char} (h : '?' ∉ l) (hq : q ≠ []) :
    querySplit (l ++ '?' :: q) = (l, false, q) := by
  have hcond : ¬((finishesWith ['?'] (l ++ '?' :: q) &&
      !((l ++ '?' :: q).dropLast.contains '?')) = true) := by
    intro hb
    obtain ⟨-, hnc⟩ := Bool.and_eq_true_iff.mp hb
    have hd : (l ++ '?' :: q).dropLast = l ++ ('?' :: q).dropLast :=
      List.dropLast_append_of_ne_nil l (by simp)
    have hmem : '?' ∈ (l ++ '?' :: q).dropLast := by
      rw [hd, List.dropLast_cons_of_ne_nil hq]
      exact List.mem_append_right _ (List.mem_cons_self _ _)
    rw [contains_iff_mem.mpr hmem] at hnc
    exact absurd hnc (by simp)
  unfold querySplit
  rw [if_neg hcond, cutFirst_app h]

lemma querySplit_fq {l : List Char} :
    (querySplit l).2.1 = true → (querySplit l).2.2 = [] := by
  unfold querySplit
  split
  · intro _
    rfl
  · intro h
    exact absurd h (by simp)

lemma parseAuthority_no_at {a : List Char} (h : '@' ∉ a) :
    parseAuthority a = (none, a) := by
  unfold parseAuthority
  rw [if_neg (fun hc => h (contains_iff_mem.mp hc))]

lemma parseAuthority_at {ui host : List Char} (h : '@' ∉ host) :
    parseAuthority (ui ++ '@' :: host) = (some ui, host) := by
  have hrev : (ui ++ '@' :: host).reverse = host.reverse ++ '@' :: ui.reverse := by
    simp [List.reverse_append]
  unfold parseAuthority
  rw [if_pos (contains_iff_mem.mpr (List.mem_append_right _ (List.mem_cons_self _ _)))]
  rw [hrev, cutFirst_app (by simpa using h)]
  simp

/-! ## `getScheme` characterization -/

lemma getSchemeGo_colon {r : List Char} :
    ∀ (s acc : List Char), (∀ c ∈ s, isSchemeChar c = true) →
      getSchemeGo (s ++ ':' :: r) acc false = .ok (some (acc ++ s, r)) := by
  intro s
  induction s with
  | nil =>
    intro acc h
    have h1 : (':').isAlpha = false := rfl
    have h2 : ((':').isDigit || ':' == '+' || ':' == '-' || ':' == '.') = false := rfl
    simp [getSchemeGo, h1, h2]
  | cons c cs ih =>
    intro acc h
    have hc := h c (List.mem_cons_self _ _)
    have htail : ∀ x ∈ cs, isSchemeChar x = true :=
      fun x hx => h x (List.mem_cons_of_mem _ hx)
    have hstep : getSchemeGo ((c :: cs) ++ ':' :: r) acc false =
        getSchemeGo (cs ++ ':' :: r) (acc ++ [c]) false := by
      by_cases hca : c.isAlpha = true
      · simp [getSchemeGo, hca]
      · have hcd : (c.isDigit || c == '+' || c == '-' || c == '.') = true := by
          have := hc
          simp only [isSchemeChar, Bool.or_eq_true] at this ⊢
          tauto
        simp [getSchemeGo, hca, hcd]
    rw [hstep, ih (acc ++ [c]) htail]
    simp

lemma getScheme_valid {s r : List Char} (h : validScheme s = true) :
    getScheme (s ++ ':' :: r) = .ok (s, r) := by
  cases s with
  | nil => exact absurd h (by simp [validScheme])
  | cons c cs =>
    have h' : c.isAlpha = true ∧ cs.all isSchemeChar = true := by
      simpa [validScheme] using h
    have hstep : getSchemeGo ((c :: cs) ++ ':' :: r) [] true =
        getSchemeGo (cs ++ ':' :: r) [c] false := by
      simp [getSchemeGo, h'.1]
    unfold getScheme
    rw [hstep, getSchemeGo_colon cs [c] (List.all_eq_true.mp h'.2)]
    simp

lemma getSchemeGo_none :
    ∀ (l acc : List Char) (first : Bool),
      (l.dropWhile (fun c => isSchemeChar c)).head? ≠ some ':' →
      getSchemeGo l acc first = .ok none := by
  intro l
  induction l with
  | nil => intro acc first _; rfl
  | cons c cs ih =>
    intro acc first h
    by_cases hsc : isSchemeChar c = true
    · have hdw : (c :: cs).dropWhile (fun c => isSchemeChar c) =
          cs.dropWhile (fun c => isSchemeChar c) := by
        rw [List.dropWhile_cons_of_pos hsc]
      rw [hdw] at h
      by_cases hca : c.isAlpha = true
      · simp only [getSchemeGo, if_pos hca]
        exact ih _ false h
      · have hcd : (c.isDigit || c == '+' || c == '-' || c == '.') = true := by
          simp only [isSchemeChar, Bool.or_eq_true] at hsc ⊢
          tauto
        cases first with
        | true => simp [getSchemeGo, hca, hcd]
        | false =>
          simp only [getSchemeGo, if_neg hca, if_pos hcd, Bool.false_eq_true, if_false]
          exact ih _ false h
    · have hdw : (c :: cs).dropWhile (fun c => isSchemeChar c) = c :: cs := by
        rw [List.dropWhile_cons_of_neg (by simpa using hsc)]
      rw [hdw] at h
      have hcne : ¬(c = ':') := by
        intro he
        exact h (by rw [he]; rfl)
      have hca : c.isAlpha = false := by
        by_contra hca'
        exact hsc (by simp [isSchemeChar, Bool.of_not_eq_false hca'])
      have hcd : (c.isDigit || c == '+' || c == '-' || c == '.') = false := by
        by_contra hcd'
        have := Bool.of_not_eq_false hcd'
        apply hsc
        simp only [isSchemeChar, Bool.or_eq_true] at this ⊢
        tauto
      simp [getSchemeGo, hca, hcd, hcne]

lemma getScheme_none {l : List Char}
    (h : (l.dropWhile (fun c => isSchemeChar c)).head? ≠ some ':') :
    getScheme l = .ok ([], l) := by
  unfold getScheme
  rw [getSchemeGo_none l [] true h]

lemma getSchemeGo_ok_some :
    ∀ (l acc : List Char) (first : Bool) (s r : List Char),
      getSchemeGo l acc first = .ok (some (s, r)) →
      ∃ mid, l = mid ++ ':' :: r ∧ s = acc ++ mid ∧
        (∀ c ∈ mid, isSchemeChar c = true) ∧
        (first = true → ∃ d ds, mid = d :: ds ∧ d.isAlpha = true) := by
  intro l
  induction l with
  | nil => intro acc first s r h; exact absurd h (by simp [getSchemeGo])
  | cons c cs ih =>
    intro acc first s r h
    by_cases hca : c.isAlpha = true
    · rw [show getSchemeGo (c :: cs) acc first =
          getSchemeGo cs (acc ++ [c]) false by simp [getSchemeGo, hca]] at h
      obtain ⟨mid, hl, hs, hmid, -⟩ := ih (acc ++ [c]) false s r h
      refine ⟨c :: mid, by rw [hl]; rfl, by rw [hs, List.append_assoc]; rfl, ?_, ?_⟩
      · intro x hx
        rcases List.mem_cons.mp hx with rfl | hx'
        · simp [isSchemeChar, hca]
        · exact hmid x hx'
      · intro _
        exact ⟨c, mid, rfl, hca⟩
    · by_cases hcd : (c.isDigit || c == '+' || c == '-' || c == '.') = true
      · cases first with
        | true =>
          rw [show getSchemeGo (c :: cs) acc true = .ok none by
            simp [getSchemeGo, hca, hcd]] at h
          exact absurd h (by simp)
        | false =>
          rw [show getSchemeGo (c :: cs) acc false =
              getSchemeGo cs (acc ++ [c]) false by
            simp [getSchemeGo, hca, hcd]] at h
          obtain ⟨mid, hl, hs, hmid, -⟩ := ih (acc ++ [c]) false s r h
          refine ⟨c :: mid, by rw [hl]; rfl, by rw [hs, List.append_assoc]; rfl, ?_, ?_⟩
          · intro x hx
            rcases List.mem_cons.mp hx with rfl | hx'
            · simp only [isSchemeChar, Bool.or_eq_true] at hcd ⊢
              tauto
            · exact hmid x hx'
          · intro hfalse
            exact absurd hfalse (by simp)
      · by_cases hcc : (c == ':') = true
        · rw [beq_iff_eq] at hcc
          subst hcc
          cases first with
          | true =>
            rw [show getSchemeGo (':' :: cs) acc true = .error "missing protocol scheme" by
              simp [getSchemeGo, hca, hcd]] at h
            exact absurd h (by simp)
          | false =>
            rw [show getSchemeGo (':' :: cs) acc false = .ok (some (acc, cs)) by
              simp [getSchemeGo, hca, hcd]] at h
            have hsr : s = acc ∧ r = cs := by
              have := h
              simp only [Except.ok.injEq, Option.some.injEq, Prod.mk.injEq] at this
              exact ⟨this.1.symm, this.2.symm⟩
            refine ⟨[], by rw [hsr.2]; simp, by rw [hsr.1]; simp, by simp, ?_⟩
            intro hfalse
            exact absurd hfalse (by simp)
        · rw [show getSchemeGo (c :: cs) acc first = .ok none by
            simp [getSchemeGo, hca, hcd, hcc]] at h
          exact absurd h (by simp)

lemma getScheme_shape {l s r : List Char} (h : getScheme l = .ok (s, r)) :
    (s = [] ∧ r = l) ∨ (validScheme s = true ∧ l = s ++ ':' :: r) := by
  unfold getScheme at h
  cases hg : getSchemeGo l [] true with
  | error e => rw [hg] at h; exact absurd h (by simp)
  | ok o =>
    cases o with
    | none =>
      rw [hg] at h
      left
      have := h
      simp only [Except.ok.injEq, Prod.mk.injEq] at this
      exact ⟨this.1.symm, this.2.symm⟩
    | some p =>
      obtain ⟨s', r'⟩ := p
      rw [hg] at h
      have hsr : s = s' ∧ r = r' := by
        have := h
        simp only [Except.ok.injEq, Prod.mk.injEq] at this
        exact ⟨this.1.symm, this.2.symm⟩
      obtain ⟨rfl, rfl⟩ := hsr
      obtain ⟨mid, hl, hs, hmid, hfirst⟩ := getSchemeGo_ok_some l [] true _ _ hg
      obtain ⟨d, ds, rfl, hd⟩ := hfirst rfl
      rw [List.nil_append] at hs
      subst hs
      right
      refine ⟨?_, hl⟩
      simp only [validScheme, Bool.and_eq_true, List.all_eq_true]
      exact ⟨hd, fun x hx => hmid x (List.mem_cons_of_mem _ hx)⟩

/-! ## Well-formedness of parser outputs -/

lemma beginsWith_single_iff {c : Char} {l : List Char} :
    beginsWith [c] l = true ↔ l.head? = some c := by
  cases l with
  | nil => simp [beginsWith]
  | cons x xs =>
    simp only [beginsWith, Bool.and_eq_true, beq_iff_eq, List.head?_cons,
      Option.some.injEq]
    constructor
    · rintro ⟨rfl, -⟩
      rfl
    · rintro rfl
      exact ⟨rfl, trivial⟩

lemma beginsWith_single_false {c : Char} {l : List Char} :
    beginsWith [c] l = false ↔ l.head? ≠ some c := by
  rw [← Bool.not_eq_true, not_iff_not]
  exact beginsWith_single_iff

lemma querySplit_fst_subset {l : List Char} : ∀ x ∈ (querySplit l).1, x ∈ l := by
  unfold querySplit
  split
  · exact fun x hx => List.Sublist.subset (List.dropLast_sublist _) hx
  · exact fun x hx => mem_cutFirst_fst hx

lemma querySplit_rq_subset {l : List Char} : ∀ x ∈ (querySplit l).2.2, x ∈ l := by
  unfold querySplit
  split
  · intro x hx
    exact absurd hx (List.not_mem_nil x)
  · exact fun x hx => mem_cutFirst_snd hx

lemma querySplit_fst_no_query {l : List Char} : '?' ∉ (querySplit l).1 := by
  unfold querySplit
  split
  · rename_i hcond
    obtain ⟨-, hq⟩ := Bool.and_eq_true_iff.mp hcond
    exact contains_eq_false_iff.mp (by simpa using hq)
  · exact not_mem_cutFirst_fst _ _

lemma parseAuthority_shape (a : List Char) :
    (parseAuthority a = (none, a) ∧ '@' ∉ a) ∨
    (∃ ui host, a = ui ++ '@' :: host ∧ parseAuthority a = (some ui, host) ∧
      '@' ∉ host) := by
  by_cases hc : '@' ∈ a
  · right
    have hrev : '@' ∈ a.reverse := by simpa using hc
    rcases cutFirst_decomp '@' a.reverse with ⟨-, h2, h3⟩ | ⟨-, -, -, h4⟩
    · refine ⟨(cutFirst '@' a.reverse).2.1.reverse, (cutFirst '@' a.reverse).1.reverse,
        ?_, ?_, ?_⟩
      · have := congrArg List.reverse h2
        simpa [List.reverse_append] using this
      · unfold parseAuthority
        rw [if_pos (contains_iff_mem.mpr hc)]
      · simpa using h3
    · exact absurd hrev h4
  · left
    exact ⟨parseAuthority_no_at hc, hc⟩

lemma WF_set_fragment {u : URL} (h : WF u) (f : List Char) :
    WF { u with fragment := f } :=
  { scheme_ok := h.scheme_ok, opaque_ok := h.opaque_ok,
    opaque_hash := h.opaque_hash, opaque_query := h.opaque_query,
    host_slash := h.host_slash, host_query := h.host_query,
    host_hash := h.host_hash, host_at := h.host_at,
    user_ok := h.user_ok, path_hash := h.path_hash, path_query := h.path_query,
    query_hash := h.query_hash, fq_ok := h.fq_ok, path_abs := h.path_abs,
    path_colon := h.path_colon, path_dslash := h.path_dslash,
    omit_ok := h.omit_ok }

lemma parseNoFrag_wf {b : List Char} {u : URL} (hb : '#' ∉ b)
    (h : parseNoFrag b = .ok u) : WF u := by
  unfold parseNoFrag at h
  by_cases hstar : (b == ['*']) = true
  · rw [if_pos hstar] at h
    have hu : ({ emptyURL with path := ['*'] } : URL) = u := by simpa using h
    subst hu
    refine ⟨Or.inl rfl, Or.inl rfl, ?_, ?_, ?_, ?_, ?_, ?_, ?_, ?_, ?_, ?_, ?_,
      ?_, ?_, ?_, ?_⟩ <;> simp [emptyURL, cutFirst, beginsWith]
  · rw [if_neg hstar] at h
    cases hgs : getScheme b with
    | error e =>
      rw [hgs] at h
      exact absurd h (by simp)
    | ok p =>
      obtain ⟨scheme0, rest0⟩ := p
      simp only [hgs] at h
      unfold parseTail at h
      have hrest0 : ∀ x ∈ rest0, x ∈ b := by
        rcases getScheme_shape hgs with ⟨-, rfl⟩ | ⟨-, rfl⟩
        · exact fun x hx => hx
        · exact fun x hx =>
            List.mem_append_right _ (List.mem_cons_of_mem _ hx)
      have hscheme_ok : scheme0.map Char.toLower = [] ∨
          (validScheme (scheme0.map Char.toLower) = true ∧
            (scheme0.map Char.toLower).map Char.toLower = scheme0.map Char.toLower) := by
        cases hs0 : scheme0 with
        | nil => exact Or.inl rfl
        | cons c cs =>
          rcases getScheme_shape hgs with ⟨he, -⟩ | ⟨hv, -⟩
          · exact absurd he (by simp [hs0])
          · rw [← hs0]
            exact Or.inr ⟨validScheme_toLower hv, map_toLower_idem scheme0⟩
      have hrest_sub : ∀ x ∈ (querySplit rest0).1, x ∈ b :=
        fun x hx => hrest0 x (querySplit_fst_subset x hx)
      have hrq_sub : ∀ x ∈ (querySplit rest0).2.2, x ∈ b :=
        fun x hx => hrest0 x (querySplit_rq_subset x hx)
      have hrest_hash : '#' ∉ (querySplit rest0).1 := fun hx => hb (hrest_sub _ hx)
      have hrest_query : '?' ∉ (querySplit rest0).1 := querySplit_fst_no_query
      have hrq_hash : '#' ∉ (querySplit rest0).2.2 := fun hx => hb (hrq_sub _ hx)
      have hfq : (querySplit rest0).2.1 = true → (querySplit rest0).2.2 = [] :=
        querySplit_fq
      by_cases hA : (!beginsWith ['/'] (querySplit rest0).1 &&
          scheme0.map Char.toLower != []) = true
      · rw [if_pos hA] at h
        obtain ⟨hA1, hA2⟩ := Bool.and_eq_true_iff.mp hA
        have hu := Except.ok.inj h
        subst hu
        exact
          { scheme_ok := hscheme_ok,
            opaque_ok := Or.inr ⟨by simpa using bne_iff_ne.mp hA2,
              beginsWith_single_false.mp (by simpa using hA1), rfl, rfl, rfl, rfl⟩,
            opaque_hash := hrest_hash,
            opaque_query := hrest_query,
            host_slash := by simp [emptyURL],
            host_query := by simp [emptyURL],
            host_hash := by simp [emptyURL],
            host_at := by simp [emptyURL],
            user_ok := by simp [emptyURL],
            path_hash := by simp [emptyURL],
            path_query := by simp [emptyURL],
            query_hash := hrq_hash,
            fq_ok := hfq,
            path_abs := fun _ => Or.inl rfl,
            path_colon := by intro _; simp [emptyURL, cutFirst],
            path_dslash := by
              intro _ hbw
              exact absurd hbw (by simp [emptyURL, beginsWith]),
            omit_ok := by
              intro ho
              exact absurd ho (by simp [emptyURL]) }
      · rw [if_neg hA] at h
        by_cases hB : (!beginsWith ['/'] (querySplit rest0).1 &&
            (cutFirst '/' (querySplit rest0).1).1.contains ':') = true
        · rw [if_pos hB] at h
          simp at h
        · rw [if_neg hB] at h
          by_cases hC : ((scheme0.map Char.toLower != [] ||
              !beginsWith ['/', '/', '/'] (querySplit rest0).1) &&
              beginsWith ['/', '/'] (querySplit rest0).1) = true
          · rw [if_pos hC] at h
            obtain ⟨hC1, hC2⟩ := Bool.and_eq_true_iff.mp hC
            obtain ⟨t2, ht2⟩ := beginsWith_iff.mp hC2
            have hdrop : (querySplit rest0).1.drop 2 = t2 := by rw [ht2]; rfl
            -- the authority/path split
            have hasub : ∀ x ∈ t2, x ∈ b := by
              intro x hx
              exact hrest_sub x (by rw [ht2]; exact
                List.mem_append_right _ hx)
            have happath :
                ((if t2.contains '/' then
                    ((cutFirst '/' t2).1, '/' :: (cutFirst '/' t2).2.1)
                  else (t2, [])) : List Char × List Char) =
                (if t2.contains '/' then
                    ((cutFirst '/' t2).1, '/' :: (cutFirst '/' t2).2.1)
                  else (t2, [])) := rfl
            rw [hdrop] at h
            dsimp only at h
            set ap := (if t2.contains '/' then
                ((cutFirst '/' t2).1, '/' :: (cutFirst '/' t2).2.1)
              else (t2, [])) with hap
            have hap1_sub : ∀ x ∈ ap.1, x ∈ t2 := by
              rw [hap]
              split
              · exact fun x hx => mem_cutFirst_fst hx
              · exact fun x hx => hx
            have hap1_slash : '/' ∉ ap.1 := by
              rw [hap]
              split
              · exact not_mem_cutFirst_fst _ _
              · rename_i hnc
                intro hx
                have hcf : t2.contains '/' = false := by
                  revert hnc
                  cases t2.contains '/' <;> simp
                exact (contains_eq_false_iff.mp hcf) hx
            have hap2_shape : ap.2 = [] ∨ ap.2.head? = some '/' := by
              rw [hap]
              split
              · exact Or.inr rfl
              · exact Or.inl rfl
            have hap2_sub : ∀ x ∈ ap.2, x ∈ (querySplit rest0).1 := by
              rw [hap]
              split
              · intro x hx
                rcases List.mem_cons.mp hx with rfl | hx'
                · rw [ht2]
                  exact List.mem_append_left _ (by simp)
                · rw [ht2]
                  exact List.mem_append_right _ (mem_cutFirst_snd hx')
              · intro x hx
                exact absurd hx (List.not_mem_nil x)
            have ht2_sub : ∀ x ∈ t2, x ∈ (querySplit rest0).1 := by
              intro x hx
              rw [ht2]
              exact List.mem_append_right _ hx
            have hap1_sub' : ∀ x ∈ ap.1, x ∈ (querySplit rest0).1 :=
              fun x hx => ht2_sub x (hap1_sub x hx)
            have hdslash : ∀ hhost : ap.1 = [],
                scheme0.map Char.toLower = [] →
                beginsWith ['/', '/'] ap.2 = true →
                beginsWith ['/', '/', '/'] ap.2 = true := by
              intro hhost hsch hbw
              by_cases hcont : t2.contains '/' = true
              · have hap1 : ap.1 = (cutFirst '/' t2).1 := by
                  rw [hap, if_pos hcont]
                have hap1nil : (cutFirst '/' t2).1 = [] := by
                  rw [← hap1]
                  exact hhost
                rcases cutFirst_decomp '/' t2 with ⟨-, hdec, -⟩ | ⟨-, hfst, -, hnmem⟩
                · rw [hap1nil, List.nil_append] at hdec
                  have hbww : beginsWith ['/', '/', '/'] (querySplit rest0).1 = true := by
                    rw [ht2, hdec]
                    exact beginsWith_iff.mpr ⟨_, rfl⟩
                  have hsch0 : (scheme0.map Char.toLower != []) = false := by
                    simp [hsch]
                  rcases Bool.or_eq_true_iff.mp hC1 with h' | h'
                  · rw [hsch0] at h'
                    exact absurd h' (by simp)
                  · rw [hbww] at h'
                    exact absurd h' (by simp)
                · exact absurd (contains_iff_mem.mp hcont) hnmem
              · have hap2nil : ap.2 = [] := by
                  rw [hap, if_neg hcont]
                rw [hap2nil] at hbw
                exact absurd hbw (by simp [beginsWith])
            have hpath_colon : ':' ∉ (cutFirst '/' ap.2).1 := by
              rcases hap2_shape with hnil | hhd
              · rw [hnil]
                simp [cutFirst]
              · cases hp2 : ap.2 with
                | nil => simp [cutFirst]
                | cons a tl =>
                  rw [hp2] at hhd
                  have ha : a = '/' := by simpa using hhd
                  subst ha
                  simp [cutFirst]
            rcases parseAuthority_shape ap.1 with ⟨hpa, hat⟩ | ⟨ui, host, hsplit, hpa, hat⟩
            · rw [hpa] at h
              have hu := Except.ok.inj h
              subst hu
              exact
                { scheme_ok := hscheme_ok,
                  opaque_ok := Or.inl rfl,
                  opaque_hash := by simp [emptyURL],
                  opaque_query := by simp [emptyURL],
                  host_slash := hap1_slash,
                  host_query := fun hx => hrest_query (hap1_sub' _ hx),
                  host_hash := fun hx => hrest_hash (hap1_sub' _ hx),
                  host_at := hat,
                  user_ok := fun ui hui => absurd hui (by simp),
                  path_hash := fun hx => hrest_hash (hap2_sub _ hx),
                  path_query := fun hx => hrest_query (hap2_sub _ hx),
                  query_hash := hrq_hash,
                  fq_ok := hfq,
                  path_abs := fun _ => hap2_shape,
                  path_colon := fun _ => hpath_colon,
                  path_dslash := by
                    rintro ⟨hsch, hhost, -, -⟩ hbw
                    exact hdslash hhost hsch hbw,
                  omit_ok := by
                    intro ho
                    exact absurd ho (by simp [emptyURL]) }
            · rw [hpa] at h
              have hu := Except.ok.inj h
              subst hu
              have hhost_sub : ∀ x ∈ host, x ∈ ap.1 := by
                intro x hx
                rw [hsplit]
                exact List.mem_append_right _ (List.mem_cons_of_mem _ hx)
              have hui_sub : ∀ x ∈ ui, x ∈ ap.1 := by
                intro x hx
                rw [hsplit]
                exact List.mem_append_left _ hx
              exact
                { scheme_ok := hscheme_ok,
                  opaque_ok := Or.inl rfl,
                  opaque_hash := by simp [emptyURL],
                  opaque_query := by simp [emptyURL],
                  host_slash := fun hx => hap1_slash (hhost_sub _ hx),
                  host_query := fun hx => hrest_query (hap1_sub' _ (hhost_sub _ hx)),
                  host_hash := fun hx => hrest_hash (hap1_sub' _ (hhost_sub _ hx)),
                  host_at := hat,
                  user_ok := by
                    intro vi hvi
                    have hvi' : ui = vi := Option.some.inj hvi
                    subst hvi'
                    exact ⟨fun hx => hap1_slash (hui_sub _ hx),
                      fun hx => hrest_query (hap1_sub' _ (hui_sub _ hx)),
                      fun hx => hrest_hash (hap1_sub' _ (hui_sub _ hx))⟩,
                  path_hash := fun hx => hrest_hash (hap2_sub _ hx),
                  path_query := fun hx => hrest_query (hap2_sub _ hx),
                  query_hash := hrq_hash,
                  fq_ok := hfq,
                  path_abs := fun _ => hap2_shape,
                  path_colon := fun _ => hpath_colon,
                  path_dslash := by
                    rintro ⟨-, -, hun, -⟩ _
                    exact absurd hun (by simp),
                  omit_ok := by
                    intro ho
                    exact absurd ho (by simp [emptyURL]) }
          · rw [if_neg hC] at h
            have hu := Except.ok.inj h
            subst hu
            have hA' : beginsWith ['/'] (querySplit rest0).1 = true ∨
                scheme0.map Char.toLower = [] := by
              by_cases hbw : beginsWith ['/'] (querySplit rest0).1 = true
              · exact Or.inl hbw
              · by_cases hsch : scheme0.map Char.toLower = []
                · exact Or.inr hsch
                · refine absurd ?_ hA
                  rw [Bool.and_eq_true_iff]
                  exact ⟨by simpa using hbw, bne_iff_ne.mpr hsch⟩
            have hB' : beginsWith ['/'] (querySplit rest0).1 = true ∨
                ':' ∉ (cutFirst '/' (querySplit rest0).1).1 := by
              by_cases hbw : beginsWith ['/'] (querySplit rest0).1 = true
              · exact Or.inl hbw
              · by_cases hcol : ':' ∈ (cutFirst '/' (querySplit rest0).1).1
                · refine absurd ?_ hB
                  rw [Bool.and_eq_true_iff]
                  exact ⟨by simpa using hbw, contains_iff_mem.mpr hcol⟩
                · exact Or.inr hcol
            have hC' : scheme0.map Char.toLower = [] →
                beginsWith ['/', '/'] (querySplit rest0).1 = true →
                beginsWith ['/', '/', '/'] (querySplit rest0).1 = true := by
              intro hsch hbw2
              by_cases hbw3 : beginsWith ['/', '/', '/'] (querySplit rest0).1 = true
              · exact hbw3
              · refine absurd ?_ hC
                rw [Bool.and_eq_true_iff]
                refine ⟨?_, hbw2⟩
                rw [Bool.or_eq_true_iff]
                exact Or.inr (by simpa using hbw3)
            have hC2' : scheme0.map Char.toLower ≠ [] →
                beginsWith ['/', '/'] (querySplit rest0).1 = false := by
              intro hsch
              by_contra hbw2
              refine hC ?_
              rw [Bool.and_eq_true_iff]
              refine ⟨?_, by revert hbw2; cases beginsWith ['/', '/'] (querySplit rest0).1 <;> simp⟩
              rw [Bool.or_eq_true_iff]
              exact Or.inl (bne_iff_ne.mpr hsch)
            have hhead : beginsWith ['/'] (querySplit rest0).1 = true →
                ':' ∉ (cutFirst '/' (querySplit rest0).1).1 := by
              intro hbw
              obtain ⟨t, ht⟩ := beginsWith_iff.mp hbw
              rw [ht]
              simp [cutFirst]
            exact
              { scheme_ok := hscheme_ok,
                opaque_ok := Or.inl rfl,
                opaque_hash := by simp [emptyURL],
                opaque_query := by simp [emptyURL],
                host_slash := by simp [emptyURL],
                host_query := by simp [emptyURL],
                host_hash := by simp [emptyURL],
                host_at := by simp [emptyURL],
                user_ok := fun ui hui => absurd hui (by simp [emptyURL]),
                path_hash := hrest_hash,
                path_query := hrest_query,
                query_hash := hrq_hash,
                fq_ok := hfq,
                path_abs := by
                  rintro (⟨hsch, -⟩ | hhost | huser)
                  · rcases hA' with hbw | hsch'
                    · exact Or.inr (beginsWith_single_iff.mp hbw)
                    · exact absurd hsch' hsch
                  · exact absurd hhost (by simp [emptyURL])
                  · exact absurd huser (by simp [emptyURL]),
                path_colon := by
                  rintro ⟨hsch, -, -⟩
                  rcases hB' with hbw | hcol
                  · exact hhead hbw
                  · exact hcol,
                path_dslash := by
                  rintro ⟨hsch, -, -, -⟩ hbw
                  exact hC' hsch hbw,
                omit_ok := by
                  intro ho
                  obtain ⟨h1, h2⟩ := Bool.and_eq_true_iff.mp ho
                  exact ⟨bne_iff_ne.mp h1, rfl, rfl,
                    beginsWith_single_iff.mp h2, hC2' (bne_iff_ne.mp h1)⟩ }

lemma parseURL_wf {raw : List Char} {u : URL} (h : parseURL raw = .ok u) : WF u := by
  unfold parseURL at h
  cases hpn : parseNoFrag (cutFirst '#' raw).1 with
  | error e =>
    simp only [hpn] at h
    exact absurd h (by simp)
  | ok u0 =>
    simp only [hpn] at h
    have hu := Except.ok.inj h
    subst hu
    exact WF_set_fragment (parseNoFrag_wf (not_mem_cutFirst_fst _ _) hpn) _

/-! ## The serializer is a right inverse of the parser on `WF` URLs -/

lemma querySplit_serialized (rest1 : List Char) (fq : Bool) (rq : List Char)
    (h1 : '?' ∉ rest1) (h2 : fq = true → rq = []) :
    querySplit (if fq || rq != [] then rest1 ++ '?' :: rq else rest1) =
      (rest1, fq, rq) := by
  cases fq with
  | true =>
    have hrq : rq = [] := h2 rfl
    subst hrq
    rw [if_pos (by simp)]
    exact querySplit_force h1
  | false =>
    by_cases hrq : rq = []
    · subst hrq
      rw [if_neg (by simp)]
      exact querySplit_no_query h1
    · rw [if_pos (by simp [bne_iff_ne.mpr hrq])]
      exact querySplit_query h1 hrq

lemma mem_cutFirst_fst_of_prefix {sep c : Char} {pre x : List Char}
    (hpre : sep ∉ pre) (hc : c ≠ sep) :
    c ∈ (cutFirst sep (pre ++ c :: x)).1 := by
  induction pre with
  | nil =>
    have hcs : (c == sep) = false := by simpa using hc
    simp [cutFirst, hcs]
  | cons p ps ih =>
    have hp : ¬(p == sep) = true := by
      simp only [beq_iff_eq]
      rintro rfl
      exact hpre (List.mem_cons_self _ _)
    simp only [List.cons_append, cutFirst, if_neg hp]
    exact List.mem_cons_of_mem _ (ih fun hm => hpre (List.mem_cons_of_mem _ hm))

lemma dropWhile_head_colon {l : List Char}
    (h : (l.dropWhile (fun c => isSchemeChar c)).head? = some ':') :
    ∃ pre post, l = pre ++ ':' :: post ∧ ∀ x ∈ pre, isSchemeChar x = true := by
  refine ⟨l.takeWhile (fun c => isSchemeChar c), (l.dropWhile (fun c => isSchemeChar c)).tail,
    ?_, fun x hx => List.mem_takeWhile_imp hx⟩
  cases hd : l.dropWhile (fun c => isSchemeChar c) with
  | nil => rw [hd] at h; exact absurd h (by simp)
  | cons d ds =>
    rw [hd] at h
    have hdc : d = ':' := by simpa using h
    subst hdc
    conv_lhs => rw [← List.takeWhile_append_dropWhile (p := fun c => isSchemeChar c) (l := l)]
    rw [hd]
    rfl

lemma noscheme_of_path {path qt : List Char}
    (hcolon : ':' ∉ (cutFirst '/' path).1) (hq : '?' ∉ path)
    (hqt : qt = [] ∨ ∃ rq, qt = '?' :: rq) :
    ((path ++ qt).dropWhile (fun c => isSchemeChar c)).head? ≠ some ':' := by
  intro hcol
  obtain ⟨pre, post, hsplit, hpre⟩ := dropWhile_head_colon hcol
  have hq' : '?' ∉ pre := fun hx => by
    have := hpre _ hx
    exact absurd this (by simp [isSchemeChar])
  have hslash : '/' ∉ pre := fun hx => by
    have := hpre _ hx
    exact absurd this (by simp [isSchemeChar])
  rcases List.append_eq_append_iff.mp hsplit.symm with ⟨a', ha1, ha2⟩ | ⟨c', hc1, hc2⟩
  · -- path = pre ++ a', a' ++ qt = ':' :: post
    cases a' with
    | nil =>
      rcases hqt with rfl | ⟨rq, rfl⟩
      · simp at ha2
      · rw [List.nil_append] at ha2
        have : '?' = ':' := by
          have := congrArg List.head? ha2
          simpa using this
        exact absurd this (by decide)
    | cons a as =>
      have ha : ':' = a := by
        have := congrArg List.head? ha2
        simpa using this
      subst ha
      refine hcolon ?_
      rw [ha1]
      exact mem_cutFirst_fst_of_prefix hslash (by decide)
  · -- pre = path ++ c', qt = c' ++ ':' :: post
    rcases hqt with rfl | ⟨rq, rfl⟩
    · cases c' <;> simp at hc2
    · cases c' with
      | nil =>
        have : '?' = ':' := by
          have := congrArg List.head? hc2
          simpa using this
        exact absurd this (by decide)
      | cons c cs =>
        have hcq : '?' = c := by
          have := congrArg List.head? hc2
          simpa using this
        subst hcq
        refine hq' ?_
        rw [hc1]
        exact List.mem_append_right _ (List.mem_cons_self _ _)

lemma authsplit (auth path : List Char) (hs : '/' ∉ auth)
    (hp : path = [] ∨ path.head? = some '/') :
    (if (auth ++ path).contains '/' = true then
        ((cutFirst '/' (auth ++ path)).1, '/' :: (cutFirst '/' (auth ++ path)).2.1)
      else ((auth ++ path : List Char), ([] : List Char))) = (auth, path) := by
  rcases hp with rfl | hhd
  · rw [List.append_nil, if_neg]
    intro hc
    exact hs (contains_iff_mem.mp hc)
  · cases path with
    | nil => exact absurd hhd (by simp)
    | cons p ps =>
      have hp' : p = '/' := by simpa using hhd
      subst hp'
      rw [if_pos (contains_iff_mem.mpr
        (List.mem_append_right _ (List.mem_cons_self _ _)))]
      rw [cutFirst_app hs]

lemma validScheme_ne_nil {s : List Char} (h : validScheme s = true) : s ≠ [] := by
  cases s with
  | nil => exact absurd h (by simp [validScheme])
  | cons c cs => simp

lemma validScheme_chars {s : List Char} (h : validScheme s = true) :
    ∀ x ∈ s, isSchemeChar x = true := by
  cases s with
  | nil => simp
  | cons c cs =>
    have h' : c.isAlpha = true ∧ ∀ x ∈ cs, isSchemeChar x = true := by
      simpa [validScheme] using h
    intro x hx
    rcases List.mem_cons.mp hx with rfl | hx'
    · simp [isSchemeChar, h'.1]
    · exact h'.2 x hx'

lemma parseNoFrag_schemeful {sch rest1 : List Char} {fq : Bool} {rq : List Char}
    (hval : validScheme sch = true) (hq1 : '?' ∉ rest1) (hfq : fq = true → rq = []) :
    parseNoFrag (sch ++ ':' :: (if fq || rq != [] then rest1 ++ '?' :: rq else rest1)) =
      parseTail (sch.map Char.toLower) rest1 fq rq := by
  have hstar : ¬((sch ++ ':' ::
      (if fq || rq != [] then rest1 ++ '?' :: rq else rest1)) == ['*']) = true := by
    intro hb
    have heq := beq_iff_eq.mp hb
    cases hsc : sch with
    | nil => exact validScheme_ne_nil hval hsc
    | cons c cs =>
      rw [hsc, List.cons_append] at heq
      have := (List.cons.inj heq).2
      exact absurd this (by simp)
  unfold parseNoFrag
  rw [if_neg hstar]
  simp only [getScheme_valid hval]
  rw [querySplit_serialized rest1 fq rq hq1 hfq]

lemma parseNoFrag_schemeless {rest1 : List Char} {fq : Bool} {rq : List Char}
    (hq1 : '?' ∉ rest1) (hfq : fq = true → rq = [])
    (hstar : (if fq || rq != [] then rest1 ++ '?' :: rq else rest1) ≠ ['*'])
    (hnos : ((if fq || rq != [] then rest1 ++ '?' :: rq else rest1).dropWhile
        (fun c => isSchemeChar c)).head? ≠ some ':') :
    parseNoFrag (if fq || rq != [] then rest1 ++ '?' :: rq else rest1) =
      parseTail [] rest1 fq rq := by
  have hstar' : ¬(((if fq || rq != [] then rest1 ++ '?' :: rq else rest1) : List Char) ==
      ['*']) = true := fun hb => hstar (beq_iff_eq.mp hb)
  unfold parseNoFrag
  rw [if_neg hstar']
  simp only [getScheme_none hnos]
  rw [querySplit_serialized rest1 fq rq hq1 hfq]
  rfl

lemma parseTail_opaque {scheme rest : List Char} {fq : Bool} {rq : List Char}
    (h1 : rest.head? ≠ some '/') (h2 : scheme ≠ []) :
    parseTail scheme rest fq rq =
      .ok { emptyURL with
            scheme := scheme, opaqueData := rest,
            forceQuery := fq, rawQuery := rq } := by
  unfold parseTail
  rw [if_pos]
  rw [Bool.and_eq_true_iff]
  exact ⟨by rw [beginsWith_single_false.mpr h1]; rfl, bne_iff_ne.mpr h2⟩

lemma parseTail_authority {scheme auth pth : List Char} {fq : Bool} {rq : List Char}
    (hs : '/' ∉ auth) (hp : pth = [] ∨ pth.head? = some '/')
    (hc : scheme ≠ [] ∨ (auth ++ pth).head? ≠ some '/') :
    parseTail scheme ('/' :: '/' :: (auth ++ pth)) fq rq =
      .ok { emptyURL with
            scheme := scheme, user := (parseAuthority auth).1,
            host := (parseAuthority auth).2, path := pth,
            forceQuery := fq, rawQuery := rq } := by
  have hbw : beginsWith ['/'] ('/' :: '/' :: (auth ++ pth)) = true := by
    simp [beginsWith]
  unfold parseTail
  rw [if_neg (by simp [hbw]), if_neg (by simp [hbw]), if_pos]
  · dsimp only
    rw [show ('/' :: '/' :: (auth ++ pth)).drop 2 = auth ++ pth from rfl]
    rw [show (if (auth ++ pth).contains '/' = true then
          ((cutFirst '/' (auth ++ pth)).1, '/' :: (cutFirst '/' (auth ++ pth)).2.1)
        else ((auth ++ pth : List Char), ([] : List Char))) = (auth, pth) from
      authsplit auth pth hs hp]
  · rw [Bool.and_eq_true_iff]
    refine ⟨?_, by simp [beginsWith]⟩
    rw [Bool.or_eq_true_iff]
    rcases hc with hc | hc
    · exact Or.inl (bne_iff_ne.mpr hc)
    · right
      have h3 : beginsWith ['/', '/', '/'] ('/' :: '/' :: (auth ++ pth)) =
          beginsWith ['/'] (auth ++ pth) := by simp [beginsWith]
      rw [h3, beginsWith_single_false.mpr hc]
      rfl

lemma parseTail_else {scheme rest : List Char} {fq : Bool} {rq : List Char}
    (hA : beginsWith ['/'] rest = true ∨ scheme = [])
    (hB : ':' ∉ (cutFirst '/' rest).1)
    (hC : ¬(((scheme != [] || !beginsWith ['/', '/', '/'] rest) &&
        beginsWith ['/', '/'] rest) = true)) :
    parseTail scheme rest fq rq =
      .ok { emptyURL with
            scheme := scheme, path := rest,
            omitHost := scheme != [] && beginsWith ['/'] rest,
            forceQuery := fq, rawQuery := rq } := by
  unfold parseTail
  rw [if_neg, if_neg, if_neg hC]
  · intro hb
    exact hB (contains_iff_mem.mp (Bool.and_eq_true_iff.mp hb).2)
  · intro hb
    obtain ⟨h1, h2⟩ := Bool.and_eq_true_iff.mp hb
    rcases hA with ha | ha
    · rw [ha] at h1
      exact absurd h1 (by simp)
    · exact bne_iff_ne.mp h2 ha

lemma append_cons_beq_nil (a : List Char) (c : Char) (b : List Char) :
    ((a ++ c :: b) == ([] : List Char)) = false :=
  beq_eq_false_iff_ne.mpr (by simp)

lemma cons_beq_nil (c : Char) (b : List Char) :
    ((c :: b) == ([] : List Char)) = false :=
  beq_eq_false_iff_ne.mpr (by simp)

lemma mem_ite_iff {c : Bool} {x : Char} {a b : List Char} :
    (x ∈ (if c = true then a else b)) ↔ ((x ∈ a ∧ c = true) ∨ (x ∈ b ∧ c = false)) := by
  cases c <;> simp

lemma hash_not_mem_body {u : URL} (h : WF u) :
    '#' ∉ toStringURL { u with fragment := [] } := by
  obtain ⟨sch, opq, usr, hst, pth, omh, fq, rq, frg⟩ := u
  have h1 : '#' ∉ sch := by
    intro hx
    rcases h.scheme_ok with h' | ⟨h', -⟩
    · rw [show sch = [] from h'] at hx
      exact absurd hx (List.not_mem_nil _)
    · exact absurd (validScheme_chars h' _ hx) (by decide)
  have h2 : '#' ∉ opq := h.opaque_hash
  have h3 : '#' ∉ hst := h.host_hash
  have h4 : '#' ∉ pth := h.path_hash
  have h5 : '#' ∉ rq := h.query_hash
  have d1 : (('#' : Char) = ':') = False := eq_false (by decide)
  have d2 : (('#' : Char) = '/') = False := eq_false (by decide)
  have d3 : (('#' : Char) = '@') = False := eq_false (by decide)
  have d4 : (('#' : Char) = '.') = False := eq_false (by decide)
  have d5 : (('#' : Char) = '?') = False := eq_false (by decide)
  rcases usr with - | ui
  · intro hx
    unfold toStringURL at hx
    dsimp only at hx
    rw [if_neg (by decide)] at hx
    simp only [mem_ite_iff, List.mem_append, List.mem_cons, List.not_mem_nil,
      d1, d2, d3, d4, d5, false_or, or_false, false_and, and_false] at hx
    tauto
  · have h6 : '#' ∉ ui := (h.user_ok ui rfl).2.2
    intro hx
    unfold toStringURL at hx
    dsimp only at hx
    rw [if_neg (by decide)] at hx
    simp only [mem_ite_iff, List.mem_append, List.mem_cons, List.not_mem_nil,
      d1, d2, d3, d4, d5, false_or, or_false, false_and, and_false] at hx
    tauto

lemma URL_eta (u : URL) : ({ u with fragment := u.fragment } : URL) = u := rfl

lemma parseNoFrag_toString {u : URL} (h : WF u) :
    parseNoFrag (toStringURL { u with fragment := [] }) =
      .ok { u with fragment := [] } := by
  obtain ⟨sch, opq, usr, hst, pth, omh, fq, rq, frg⟩ := u
  have hfq2 : fq = true → rq = [] := h.fq_ok
  have hqpth : '?' ∉ pth := h.path_query
  show parseNoFrag (toStringURL ⟨sch, opq, usr, hst, pth, omh, fq, rq, []⟩) =
    .ok ⟨sch, opq, usr, hst, pth, omh, fq, rq, []⟩
  rcases h.scheme_ok with hsch | ⟨hval, hlow⟩
  · -- no scheme
    have hsch' : sch = [] := hsch
    subst hsch'
    have hopq : opq = [] := by
      rcases h.opaque_ok with h' | ⟨h', -⟩
      · exact h'
      · exact absurd rfl h'
    subst hopq
    have homh : omh = false := by
      cases homh' : omh
      · rfl
      · exact absurd rfl (h.omit_ok homh').1
    subst homh
    by_cases hosty : hst = [] ∧ usr = none
    · obtain ⟨rfl, rfl⟩ := hosty
      -- relative path only
      have hcolon : ':' ∉ (cutFirst '/' pth).1 := h.path_colon ⟨rfl, rfl, rfl⟩
      have hcontf : ((cutFirst '/' pth).1.contains ':') = false :=
        contains_eq_false_iff.mpr hcolon
      have hser : toStringURL ⟨[], [], none, [], pth, false, fq, rq, []⟩ =
          (if fq || rq != [] then pth ++ '?' :: rq else pth) := by
        by_cases hcond : (fq || rq != []) = true <;>
          simp [toStringURL, hcond, hcontf, hcolon]
      rw [hser]
      by_cases hstar : (if fq || rq != [] then pth ++ '?' :: rq else pth) = ['*']
      · have hq0 : (fq || rq != []) = false := by
          by_contra hq1
          have hq1' : (fq || rq != []) = true := by
            revert hq1
            cases (fq || rq != []) <;> simp
          rw [if_pos hq1'] at hstar
          cases hpth2 : pth with
          | nil =>
            rw [hpth2, List.nil_append] at hstar
            exact absurd (List.cons.inj hstar).1 (by decide)
          | cons p ps =>
            rw [hpth2, List.cons_append] at hstar
            exact absurd (List.cons.inj hstar).2 (by simp)
        obtain ⟨hfqf, hrqf⟩ := Bool.or_eq_false_iff.mp hq0
        have hrq0 : rq = [] := by simpa using hrqf
        subst hfqf
        subst hrq0
        rw [if_neg (by simp)] at hstar
        subst hstar
        rfl
      · have hnos : ((if fq || rq != [] then pth ++ '?' :: rq else pth).dropWhile
            (fun c => isSchemeChar c)).head? ≠ some ':' := by
          by_cases hcond : (fq || rq != []) = true
          · rw [if_pos hcond]
            exact noscheme_of_path hcolon hqpth (Or.inr ⟨rq, rfl⟩)
          · rw [if_neg hcond]
            have h' := noscheme_of_path hcolon hqpth (Or.inl rfl)
            simpa using h'
        rw [parseNoFrag_schemeless hqpth hfq2 hstar hnos]
        rw [parseTail_else (Or.inr rfl) hcolon (by
          intro hb
          obtain ⟨hb1, hb2⟩ := Bool.and_eq_true_iff.mp hb
          have hb3 := h.path_dslash ⟨rfl, rfl, rfl, rfl⟩ hb2
          rw [hb3] at hb1
          exact absurd hb1 (by simp))]
        rfl
    · -- schemeless authority
      rcases usr with - | ui
      · have hstne : hst ≠ [] := fun h' => hosty ⟨h', rfl⟩
        have hpabs := h.path_abs (Or.inr (Or.inl hstne))
        have hser : toStringURL ⟨[], [], none, hst, pth, false, fq, rq, []⟩ =
            (if fq || rq != [] then ('/' :: '/' :: (hst ++ pth)) ++ '?' :: rq
              else ('/' :: '/' :: (hst ++ pth))) := by
          rcases hpabs with hp0 | hph
          · subst hp0
            by_cases hcond : (fq || rq != []) = true <;>
              simp [toStringURL, bne_iff_ne.mpr hstne, hcond]
          · by_cases hcond : (fq || rq != []) = true <;>
              simp [toStringURL, bne_iff_ne.mpr hstne, hcond, hph]
        have hq1 : '?' ∉ '/' :: '/' :: (hst ++ pth) := by
          intro hx
          rcases List.mem_cons.mp hx with he | hx
          · exact absurd he (by decide)
          · rcases List.mem_cons.mp hx with he | hx
            · exact absurd he (by decide)
            · rcases List.mem_append.mp hx with hx | hx
              · exact h.host_query hx
              · exact hqpth hx
        have hstar : (if fq || rq != [] then ('/' :: '/' :: (hst ++ pth)) ++ '?' :: rq
            else ('/' :: '/' :: (hst ++ pth))) ≠ ['*'] := by
          by_cases hcond : (fq || rq != []) = true
          · rw [if_pos hcond, List.cons_append]
            intro he
            exact absurd (List.cons.inj he).1 (by decide)
          · rw [if_neg hcond]
            intro he
            exact absurd (List.cons.inj he).1 (by decide)
        have hnos : ((if fq || rq != [] then ('/' :: '/' :: (hst ++ pth)) ++ '?' :: rq
            else ('/' :: '/' :: (hst ++ pth))).dropWhile
            (fun c => isSchemeChar c)).head? ≠ some ':' := by
          by_cases hcond : (fq || rq != []) = true
          · rw [if_pos hcond, List.cons_append, List.dropWhile_cons_of_neg (by decide)]
            intro hcon
            exact absurd (Option.some.inj hcon) (by decide)
          · rw [if_neg hcond, List.dropWhile_cons_of_neg (by decide)]
            intro hcon
            exact absurd (Option.some.inj hcon) (by decide)
        rw [hser, parseNoFrag_schemeless hq1 hfq2 hstar hnos]
        have hhd : (hst ++ pth).head? ≠ some '/' := by
          cases hst with
          | nil => exact absurd rfl hstne
          | cons c cs =>
            intro hcon
            have hcc : c = '/' := by simpa using hcon
            exact h.host_slash (hcc ▸ List.mem_cons_self c cs)
        rw [parseTail_authority h.host_slash hpabs (Or.inr hhd),
          parseAuthority_no_at h.host_at]
        rfl
      · have huser := h.user_ok ui rfl
        have hpabs := h.path_abs (Or.inr (Or.inr (by simp)))
        have hser : toStringURL ⟨[], [], some ui, hst, pth, false, fq, rq, []⟩ =
            (if fq || rq != [] then
              ('/' :: '/' :: ((ui ++ '@' :: hst) ++ pth)) ++ '?' :: rq
              else ('/' :: '/' :: ((ui ++ '@' :: hst) ++ pth))) := by
          rcases hpabs with hp0 | hph
          · subst hp0
            by_cases hcond : (fq || rq != []) = true <;>
              simp [toStringURL, hcond]
          · by_cases hcond : (fq || rq != []) = true <;>
              simp [toStringURL, hcond, hph]
        have hq1 : '?' ∉ '/' :: '/' :: ((ui ++ '@' :: hst) ++ pth) := by
          intro hx
          rcases List.mem_cons.mp hx with he | hx
          · exact absurd he (by decide)
          · rcases List.mem_cons.mp hx with he | hx
            · exact absurd he (by decide)
            · rcases List.mem_append.mp hx with hx | hx
              · rcases List.mem_append.mp hx with hx | hx
                · exact huser.2.1 hx
                · rcases List.mem_cons.mp hx with he | hx
                  · exact absurd he (by decide)
                  · exact h.host_query hx
              · exact hqpth hx
        have hstar : (if fq || rq != [] then
            ('/' :: '/' :: ((ui ++ '@' :: hst) ++ pth)) ++ '?' :: rq
            else ('/' :: '/' :: ((ui ++ '@' :: hst) ++ pth))) ≠ ['*'] := by
          by_cases hcond : (fq || rq != []) = true
          · rw [if_pos hcond, List.cons_append]
            intro he
            exact absurd (List.cons.inj he).1 (by decide)
          · rw [if_neg hcond]
            intro he
            exact absurd (List.cons.inj he).1 (by decide)
        have hnos : ((if fq || rq != [] then
            ('/' :: '/' :: ((ui ++ '@' :: hst) ++ pth)) ++ '?' :: rq
            else ('/' :: '/' :: ((ui ++ '@' :: hst) ++ pth))).dropWhile
            (fun c => isSchemeChar c)).head? ≠ some ':' := by
          by_cases hcond : (fq || rq != []) = true
          · rw [if_pos hcond, List.cons_append, List.dropWhile_cons_of_neg (by decide)]
            intro hcon
            exact absurd (Option.some.inj hcon) (by decide)
          · rw [if_neg hcond, List.dropWhile_cons_of_neg (by decide)]
            intro hcon
            exact absurd (Option.some.inj hcon) (by decide)
        have hauth_slash : '/' ∉ ui ++ '@' :: hst := by
          intro hx
          rcases List.mem_append.mp hx with hx | hx
          · exact huser.1 hx
          · rcases List.mem_cons.mp hx with he | hx
            · exact absurd he (by decide)
            · exact h.host_slash hx
        have hhd : ((ui ++ '@' :: hst) ++ pth).head? ≠ some '/' := by
          cases ui with
          | nil =>
            intro hcon
            exact absurd (Option.some.inj hcon) (by decide)
          | cons c cs =>
            intro hcon
            have hcc : c = '/' := by simpa using hcon
            exact huser.1 (hcc ▸ List.mem_cons_self c cs)
        rw [hser, parseNoFrag_schemeless hq1 hfq2 hstar hnos]
        rw [parseTail_authority hauth_slash hpabs (Or.inr hhd),
          parseAuthority_at h.host_at]
        rfl
  · -- valid scheme
    have hschne : sch ≠ [] := validScheme_ne_nil hval
    have hbne : (sch != []) = true := bne_iff_ne.mpr hschne
    by_cases hopq : opq = []
    · subst hopq
      cases homh' : omh with
      | true =>
        obtain ⟨-, hhst, husr, hphead, hndd⟩ := h.omit_ok homh'
        subst hhst
        subst husr
        have hb0 : ((sch ++ ':' :: ([] : List Char)) == ([] : List Char)) = false :=
          append_cons_beq_nil _ _ _
        have hser : toStringURL ⟨sch, [], none, [], pth, true, fq, rq, []⟩ =
            sch ++ ':' :: (if fq || rq != [] then pth ++ '?' :: rq else pth) := by
          by_cases hcond : (fq || rq != []) = true <;>
            simp [toStringURL, hbne, hcond, hphead, hb0]
        have hB' : ':' ∉ (cutFirst '/' pth).1 := by
          cases hp2 : pth with
          | nil => simp [cutFirst]
          | cons a tl =>
            rw [hp2] at hphead
            have ha : a = '/' := by simpa using hphead
            subst ha
            simp [cutFirst]
        rw [hser, parseNoFrag_schemeful hval hqpth hfq2, hlow]
        rw [parseTail_else (Or.inl (beginsWith_single_iff.mpr hphead)) hB' (by
          intro hb
          obtain ⟨-, hb2⟩ := Bool.and_eq_true_iff.mp hb
          rw [hndd] at hb2
          exact absurd hb2 (by simp))]
        simp [hbne, beginsWith_single_iff.mpr hphead, emptyURL]
      | false =>
        by_cases hosty : hst = [] ∧ usr = none
        · obtain ⟨rfl, rfl⟩ := hosty
          by_cases hpth : pth = []
          · subst hpth
            have hb0 : ((sch ++ ':' :: ([] : List Char)) == ([] : List Char)) = false :=
              append_cons_beq_nil _ _ _
            have hser : toStringURL ⟨sch, [], none, [], [], false, fq, rq, []⟩ =
                sch ++ ':' :: (if fq || rq != [] then ([] : List Char) ++ '?' :: rq
                  else ([] : List Char)) := by
              by_cases hcond : (fq || rq != []) = true <;>
                simp [toStringURL, hbne, hcond, hb0]
            rw [hser, parseNoFrag_schemeful hval (by simp) hfq2, hlow,
              parseTail_opaque (by simp) hschne]
            rfl
          · have hpabs : pth = [] ∨ pth.head? = some '/' :=
              h.path_abs (Or.inl ⟨hschne, rfl⟩)
            have hphead : pth.head? = some '/' := by
              rcases hpabs with h' | h'
              · exact absurd h' hpth
              · exact h'
            have hser : toStringURL ⟨sch, [], none, [], pth, false, fq, rq, []⟩ =
                sch ++ ':' :: (if fq || rq != [] then
                  ('/' :: '/' :: (([] : List Char) ++ pth)) ++ '?' :: rq
                  else ('/' :: '/' :: (([] : List Char) ++ pth))) := by
              by_cases hcond : (fq || rq != []) = true <;>
                simp [toStringURL, hbne, hcond, hphead, bne_iff_ne.mpr hpth]
            have hq1 : '?' ∉ '/' :: '/' :: (([] : List Char) ++ pth) := by
              intro hx
              rcases List.mem_cons.mp hx with he | hx
              · exact absurd he (by decide)
              · rcases List.mem_cons.mp hx with he | hx
                · exact absurd he (by decide)
                · exact hqpth (by simpa using hx)
            rw [hser, parseNoFrag_schemeful hval hq1 hfq2, hlow,
              parseTail_authority (by simp) (Or.inr hphead) (Or.inl hschne)]
            rfl
        · rcases usr with - | ui
          · have hstne : hst ≠ [] := fun h' => hosty ⟨h', rfl⟩
            have hpabs := h.path_abs (Or.inr (Or.inl hstne))
            have hser : toStringURL ⟨sch, [], none, hst, pth, false, fq, rq, []⟩ =
                sch ++ ':' :: (if fq || rq != [] then
                  ('/' :: '/' :: (hst ++ pth)) ++ '?' :: rq
                  else ('/' :: '/' :: (hst ++ pth))) := by
              rcases hpabs with hp0 | hph
              · subst hp0
                by_cases hcond : (fq || rq != []) = true <;>
                  simp [toStringURL, hbne, bne_iff_ne.mpr hstne, hcond]
              · by_cases hcond : (fq || rq != []) = true <;>
                  simp [toStringURL, hbne, bne_iff_ne.mpr hstne, hcond, hph]
            have hq1 : '?' ∉ '/' :: '/' :: (hst ++ pth) := by
              intro hx
              rcases List.mem_cons.mp hx with he | hx
              · exact absurd he (by decide)
              · rcases List.mem_cons.mp hx with he | hx
                · exact absurd he (by decide)
                · rcases List.mem_append.mp hx with hx | hx
                  · exact h.host_query hx
                  · exact hqpth hx
            rw [hser, parseNoFrag_schemeful hval hq1 hfq2, hlow,
              parseTail_authority h.host_slash hpabs (Or.inl hschne),
              parseAuthority_no_at h.host_at]
            rfl
          · have huser := h.user_ok ui rfl
            have hpabs := h.path_abs (Or.inr (Or.inr (by simp)))
            have hser : toStringURL ⟨sch, [], some ui, hst, pth, false, fq, rq, []⟩ =
                sch ++ ':' :: (if fq || rq != [] then
                  ('/' :: '/' :: ((ui ++ '@' :: hst) ++ pth)) ++ '?' :: rq
                  else ('/' :: '/' :: ((ui ++ '@' :: hst) ++ pth))) := by
              rcases hpabs with hp0 | hph
              · subst hp0
                by_cases hcond : (fq || rq != []) = true <;>
                  simp [toStringURL, hbne, hcond]
              · by_cases hcond : (fq || rq != []) = true <;>
                  simp [toStringURL, hbne, hcond, hph]
            have hq1 : '?' ∉ '/' :: '/' :: ((ui ++ '@' :: hst) ++ pth) := by
              intro hx
              rcases List.mem_cons.mp hx with he | hx
              · exact absurd he (by decide)
              · rcases List.mem_cons.mp hx with he | hx
                · exact absurd he (by decide)
                · rcases List.mem_append.mp hx with hx | hx
                  · rcases List.mem_append.mp hx with hx | hx
                    · exact huser.2.1 hx
                    · rcases List.mem_cons.mp hx with he | hx
                      · exact absurd he (by decide)
                      · exact h.host_query hx
                  · exact hqpth hx
            have hauth_slash : '/' ∉ ui ++ '@' :: hst := by
              intro hx
              rcases List.mem_append.mp hx with hx | hx
              · exact huser.1 hx
              · rcases List.mem_cons.mp hx with he | hx
                · exact absurd he (by decide)
                · exact h.host_slash hx
            rw [hser, parseNoFrag_schemeful hval hq1 hfq2, hlow,
              parseTail_authority hauth_slash hpabs (Or.inl hschne),
              parseAuthority_at h.host_at]
            rfl
    · -- opaque
      obtain ⟨-, hhd, hhst, husr, hpth0, homh0⟩ := h.opaque_ok.resolve_left hopq
      subst hhst
      subst husr
      subst hpth0
      subst homh0
      have hopqb : (opq != []) = true := bne_iff_ne.mpr hopq
      have hoq : '?' ∉ opq := h.opaque_query
      have hser : toStringURL ⟨sch, opq, none, [], [], false, fq, rq, []⟩ =
          sch ++ ':' :: (if fq || rq != [] then opq ++ '?' :: rq else opq) := by
        by_cases hcond : (fq || rq != []) = true <;>
          simp [toStringURL, hbne, hopqb, hcond]
      rw [hser, parseNoFrag_schemeful hval hoq hfq2, hlow, parseTail_opaque hhd hschne]
      rfl

lemma toStringURL_fragment_split (u : URL) :
    toStringURL u = toStringURL { u with fragment := [] } ++
      (if u.fragment != [] then '#' :: u.fragment else []) := by
  obtain ⟨sch, opq, usr, hst, pth, omh, fq, rq, frg⟩ := u
  cases frg with
  | nil => simp
  | cons c cs =>
    show toStringURL ⟨sch, opq, usr, hst, pth, omh, fq, rq, c :: cs⟩ =
      toStringURL ⟨sch, opq, usr, hst, pth, omh, fq, rq, []⟩ ++ '#' :: c :: cs
    have h1 : (((c :: cs : List Char) != []) = true) := rfl
    have h2 : ¬((([] : List Char) != []) = true) := by decide
    unfold toStringURL
    dsimp only
    rw [if_pos h1, if_neg h2]

/-- The serializer is a right inverse of the parser on well-formed URLs. -/
lemma parseURL_toString {u : URL} (h : WF u) :
    parseURL (toStringURL u) = .ok u := by
  have hbody := parseNoFrag_toString h
  have hhash := hash_not_mem_body h
  rw [toStringURL_fragment_split u]
  by_cases hf : u.fragment = []
  · have hcond : ¬((u.fragment != []) = true) := by simp [hf]
    rw [if_neg hcond, List.append_nil]
    unfold parseURL
    rw [cutFirst_of_not_mem hhash]
    dsimp only
    simp only [hbody]
    have hcollapse : ({ { u with fragment := [] } with fragment := ([] : List Char) } : URL)
        = { u with fragment := [] } := rfl
    rw [hcollapse]
    have hfu : ({ u with fragment := ([] : List Char) } : URL) = u := by
      conv_rhs => rw [← URL_eta u]
      rw [hf]
    rw [hfu]
  · have hcond : ((u.fragment != []) = true) := bne_iff_ne.mpr hf
    rw [if_pos hcond]
    unfold parseURL
    rw [cutFirst_app hhash]
    dsimp only
    simp only [hbody]

/-! ## Normalization: `NormalizeURL` through the parser/serializer round trip -/

lemma trimSlashSuffix_subset {x : Char} {l : List Char} (hx : x ∈ trimSlashSuffix l) :
    x ∈ l := by
  unfold trimSlashSuffix at hx
  split at hx
  · exact List.Sublist.subset (List.dropLast_sublist _) hx
  · exact hx

lemma trimSlashSuffix_of_not_slash {l : List Char} (h : finishesWith ['/'] l = false) :
    trimSlashSuffix l = l := by
  simp [trimSlashSuffix, h]

lemma trimSlashSuffix_nil : trimSlashSuffix [] = [] := rfl

lemma head_dropLast {l : List Char} {c : Char} (h : l.head? = some c) (h2 : l ≠ [c]) :
    l.dropLast.head? = some c := by
  cases l with
  | nil => simp at h
  | cons a as =>
    have ha : a = c := by simpa using h
    subst ha
    cases as with
    | nil => exact absurd rfl h2
    | cons b bs => rfl

lemma trimSlashSuffix_head {p : List Char} {c : Char} (hh : p.head? = some c)
    (hne : p ≠ [c]) : (trimSlashSuffix p).head? = some c := by
  unfold trimSlashSuffix
  split
  · exact head_dropLast hh hne
  · exact hh

lemma beginsWith_of_dropLast {pre l : List Char}
    (h : beginsWith pre l.dropLast = true) : beginsWith pre l = true := by
  rw [beginsWith_iff] at h ⊢
  obtain ⟨t, ht⟩ := h
  obtain ⟨s, hs⟩ := List.dropLast_prefix l
  exact ⟨t ++ s, by rw [← hs, ht, List.append_assoc]⟩

lemma beginsWith_trim {pre p : List Char}
    (h : beginsWith pre (trimSlashSuffix p) = true) : beginsWith pre p = true := by
  unfold trimSlashSuffix at h
  split at h
  · exact beginsWith_of_dropLast h
  · exact h

lemma beginsWith_dropLast {pre l : List Char} (h : beginsWith pre l = true)
    (hlen : pre.length < l.length) : beginsWith pre l.dropLast = true := by
  rw [beginsWith_iff] at h ⊢
  obtain ⟨t, rfl⟩ := h
  have ht : t ≠ [] := by
    intro h0
    subst h0
    simp at hlen
  refine ⟨t.dropLast, ?_⟩
  rw [List.dropLast_append_of_ne_nil _ ht]

lemma cutFirst_fst_dropLast_subset {c x : Char} {p : List Char}
    (hx : x ∈ (cutFirst c p.dropLast).1) : x ∈ (cutFirst c p).1 := by
  rcases cutFirst_decomp c p.dropLast with ⟨-, hd, hnA⟩ | ⟨-, hd, -, hnotin⟩
  · obtain ⟨s, hs⟩ := List.dropLast_prefix p
    set A := (cutFirst c p.dropLast).1 with hA
    set B := (cutFirst c p.dropLast).2.1 with hB
    have hp : p = A ++ c :: (B ++ s) := by
      conv_lhs => rw [← hs, hd]
      simp
    rw [hp, cutFirst_app hnA]
    exact hx
  · rw [hd] at hx
    by_cases hc : c ∈ p
    · have hpne : p ≠ [] := by
        intro h0
        subst h0
        exact List.not_mem_nil c hc
      have hsplit : p.dropLast ++ [p.getLast hpne] = p := List.dropLast_append_getLast hpne
      by_cases hlast : p.getLast hpne = c
      · have hp : p = p.dropLast ++ c :: [] := by
          rw [hlast] at hsplit
          exact hsplit.symm
        rw [hp, cutFirst_app hnotin]
        exact hx
      · have : c ∈ p.dropLast := by
          rcases List.mem_append.mp (hsplit ▸ hc) with h' | h'
          · exact h'
          · exact absurd (List.mem_singleton.mp h').symm hlast
        exact absurd this hnotin
    · rw [cutFirst_of_not_mem hc]
      exact List.Sublist.subset (List.dropLast_sublist _) hx

lemma cutFirst_fst_trim_subset {c x : Char} {p : List Char}
    (hx : x ∈ (cutFirst c (trimSlashSuffix p)).1) : x ∈ (cutFirst c p).1 := by
  unfold trimSlashSuffix at hx
  split at hx
  · exact cutFirst_fst_dropLast_subset hx
  · exact hx

lemma trim_trim {p : List Char} (hnd : finishesWith ['/', '/'] p = false) :
    trimSlashSuffix (trimSlashSuffix p) = trimSlashSuffix p := by
  by_cases h1 : finishesWith ['/'] p = true
  · obtain ⟨t, rfl⟩ := finishesWith_iff.mp h1
    have hd : trimSlashSuffix (t ++ ['/']) = t := by
      rw [trimSlashSuffix, if_pos h1, List.dropLast_append_of_ne_nil _ (by simp),
        List.dropLast_single, List.append_nil]
    rw [hd]
    have ht : finishesWith ['/'] t = false := by
      cases hc : finishesWith ['/'] t
      · rfl
      · obtain ⟨t2, rfl⟩ := finishesWith_iff.mp hc
        have : finishesWith ['/', '/'] ((t2 ++ ['/']) ++ ['/']) = true := by
          rw [finishesWith_iff]
          exact ⟨t2, by simp⟩
        rw [this] at hnd
        exact absurd hnd (by simp)
    exact trimSlashSuffix_of_not_slash ht
  · have h1f : finishesWith ['/'] p = false := by
      cases hc : finishesWith ['/'] p
      · rfl
      · exact absurd hc h1
    rw [trimSlashSuffix_of_not_slash h1f, trimSlashSuffix_of_not_slash h1f]

lemma normMod_wf_cond {u : URL} (h : WF u)
    (hnd : u.scheme = [] ∧ u.host = [] ∧ u.user = none ∧ u.opaqueData = [] →
      finishesWith ['/', '/'] u.path = false) :
    WF (normMod u) := by
  unfold normMod
  dsimp only
  by_cases hp : (u.path != ['/']) = true
  · rw [if_pos hp]
    have hpne : u.path ≠ ['/'] := bne_iff_ne.mp hp
    refine
      { scheme_ok := h.scheme_ok,
        opaque_ok := ?_,
        opaque_hash := h.opaque_hash,
        opaque_query := h.opaque_query,
        host_slash := h.host_slash,
        host_query := h.host_query,
        host_hash := h.host_hash,
        host_at := h.host_at,
        user_ok := h.user_ok,
        path_hash := fun hx => h.path_hash (trimSlashSuffix_subset hx),
        path_query := fun hx => h.path_query (trimSlashSuffix_subset hx),
        query_hash := h.query_hash,
        fq_ok := h.fq_ok,
        path_abs := ?_,
        path_colon := fun hc hx => h.path_colon hc (cutFirst_fst_trim_subset hx),
        path_dslash := ?_,
        omit_ok := ?_ }
    · rcases h.opaque_ok with h' | ⟨h1, h2, h3, h4, h5, h6⟩
      · exact Or.inl h'
      · exact Or.inr ⟨h1, h2, h3, h4, by rw [h5]; rfl, h6⟩
    · intro hyp
      rcases h.path_abs hyp with h0 | hh
      · left
        rw [h0]
        rfl
      · right
        exact trimSlashSuffix_head hh hpne
    · intro hc hb
      have hnd2 := hnd hc
      have hb' : beginsWith ['/', '/'] u.path = true := beginsWith_trim hb
      have h3 := h.path_dslash hc hb'
      unfold trimSlashSuffix
      split
      · obtain ⟨t, hts⟩ := beginsWith_iff.mp h3
        have hlen : 3 < u.path.length := by
          cases t with
          | nil => exact absurd hnd2 (by rw [hts]; decide)
          | cons a as =>
            rw [hts]
            simp
        exact beginsWith_dropLast h3 (by simpa using hlen)
      · exact h3
    · intro homT
      obtain ⟨hs, hh, hu, hhead, hnb⟩ := h.omit_ok homT
      refine ⟨hs, hh, hu, trimSlashSuffix_head hhead hpne, ?_⟩
      cases hbb : beginsWith ['/', '/'] (trimSlashSuffix u.path)
      · rfl
      · exact absurd (beginsWith_trim hbb) (by simp [hnb])
  · rw [if_neg hp]
    exact WF_set_fragment h []

lemma normMod_wf {u : URL} (h : WF u) (hnd : finishesWith ['/', '/'] u.path = false) :
    WF (normMod u) := normMod_wf_cond h (fun _ => hnd)

lemma normMod_wf_host {u : URL} (h : WF u) (hh : u.host ≠ []) :
    WF (normMod u) := normMod_wf_cond h (fun hc => absurd hc.2.1 hh)

lemma normMod_host (u : URL) : (normMod u).host = u.host := by
  unfold normMod
  dsimp only
  split <;> rfl

lemma normMod_idem {u : URL} (hnd : finishesWith ['/', '/'] u.path = false) :
    normMod (normMod u) = normMod u := by
  unfold normMod
  dsimp only
  by_cases hp : (u.path != ['/']) = true
  · rw [if_pos hp]
    dsimp only
    by_cases hp2 : (trimSlashSuffix u.path != ['/']) = true
    · rw [if_pos hp2, trim_trim hnd]
    · rw [if_neg hp2]
  · rw [if_neg hp]
    dsimp only
    rw [if_neg hp]

lemma NormalizeURL_eq (s : String) :
    NormalizeURL s = (match parseURL s.data with
      | .error _ => s
      | .ok u => ⟨toStringURL (normMod u)⟩) := by
  unfold NormalizeURL normMod
  rfl

/-- C4 counterexample: `NormalizeURL` is not idempotent. Parsing `"x//"`
yields the path `"x//"`, whose single trailing slash is stripped to give
`"x/"`; normalizing again strips the remaining slash, giving `"x"`. -/
theorem claim_C4_counterexample :
    NormalizeURL (NormalizeURL "x//") ≠ NormalizeURL "x//" := by decide

/-- C4 (amended): `NormalizeURL` is idempotent on every input that fails
to parse and on every input whose parsed path does not end in `"//"`;
the counterexample shows the remaining inputs genuinely violate
idempotence, because `strings.TrimSuffix` removes only one slash. -/
theorem claim_C4 (s : String) (h : normSafe s = true) :
    NormalizeURL (NormalizeURL s) = NormalizeURL s := by
  cases hps : parseURL s.data with
  | error e =>
    have h1 : NormalizeURL s = s := by
      simp only [NormalizeURL_eq, hps]
    rw [h1]
    exact h1
  | ok u =>
    have hnd : finishesWith ['/', '/'] u.path = false := by
      unfold normSafe at h
      simp only [hps] at h
      simpa using h
    have hwf : WF u := parseURL_wf hps
    have h1 : NormalizeURL s = ⟨toStringURL (normMod u)⟩ := by
      simp only [NormalizeURL_eq, hps]
    rw [h1]
    have h2 : parseURL (String.data ⟨toStringURL (normMod u)⟩) = .ok (normMod u) :=
      parseURL_toString (normMod_wf hwf hnd)
    rw [NormalizeURL_eq]
    simp only [h2]
    rw [normMod_idem hnd]

/-- C4 witness: the amended idempotence at `"https://x.com/a/"`. -/
theorem claim_C4_witness :
    normSafe "https://x.com/a/" = true ∧
      NormalizeURL (NormalizeURL "https://x.com/a/") = NormalizeURL "https://x.com/a/" :=
  ⟨by decide, claim_C4 "https://x.com/a/" (by decide)⟩

/-! ## The output contract of `DiscoverAll` -/

lemma IsSameDomain_normalize {y d : String} (h : IsSameDomain y d = true)
    (hd : d.data ≠ []) : IsSameDomain (NormalizeURL y) d = true := by
  unfold IsSameDomain at h
  cases hp : parseURL y.data with
  | error e =>
    rw [hp] at h
    exact absurd h (by simp)
  | ok u =>
    rw [hp] at h
    have hhost : u.host = d.data := beq_iff_eq.mp h
    have hwf := parseURL_wf hp
    have hh : u.host ≠ [] := by
      rw [hhost]
      exact hd
    have h1 : NormalizeURL y = ⟨toStringURL (normMod u)⟩ := by
      simp only [NormalizeURL_eq, hp]
    have h2 : parseURL (String.data ⟨toStringURL (normMod u)⟩) = .ok (normMod u) :=
      parseURL_toString (normMod_wf_host hwf hh)
    rw [h1]
    unfold IsSameDomain
    simp only [h2, normMod_host]
    exact h

lemma Add_items_mem {q : Queue} {u x : String} (hx : x ∈ (q.Add u).items) :
    x ∈ q.items ∨ x = u := by
  unfold Queue.Add at hx
  split at hx
  · exact Or.inl hx
  · rcases List.mem_append.mp hx with h' | h'
    · exact Or.inl h'
    · exact Or.inr (List.mem_singleton.mp h')

lemma addLinks_items_source (domain : String) (links : List String) (q : Queue) :
    ∀ x ∈ (links.foldl (fun q2 link =>
        if IsSameDomain link domain && !IsStaticAsset link then q2.Add (NormalizeURL link)
        else q2) q).items,
      x ∈ q.items ∨ ∃ y, (IsSameDomain y domain && !IsStaticAsset y) = true ∧
        x = NormalizeURL y := by
  induction links generalizing q with
  | nil => exact fun x hx => Or.inl hx
  | cons l ls ih =>
    intro x hx
    rw [List.foldl_cons] at hx
    rcases ih _ x hx with hx' | hy
    · by_cases hf : (IsSameDomain l domain && !IsStaticAsset l) = true
      · rw [if_pos hf] at hx'
        rcases Add_items_mem hx' with h' | h'
        · exact Or.inl h'
        · exact Or.inr ⟨l, hf, h'⟩
      · rw [if_neg hf] at hx'
        exact Or.inl hx'
    · exact Or.inr hy

lemma bfsBody_items_source {env : Env} {domain : String} {q q1 : Queue}
    (h : bfsBody env domain q = some q1) :
    ∀ x ∈ q1.items, x ∈ q.items ∨
      ∃ y, (IsSameDomain y domain && !IsStaticAsset y) = true ∧ x = NormalizeURL y := by
  unfold bfsBody at h
  cases hn : q.Next with
  | none => rw [hn] at h; exact absurd h (by simp)
  | some p =>
    obtain ⟨url, q2⟩ := p
    have hitems : q2.items = q.items := by
      unfold Queue.Next at hn
      cases hg : q.items.get? q.idx with
      | none => rw [hg] at hn; exact absurd hn (by simp)
      | some u => rw [hg] at hn; cases hn; rfl
    simp only [hn] at h
    cases hf : env.fetch url with
    | error e =>
      simp only [hf] at h
      cases h
      exact fun x hx => Or.inl (hitems ▸ hx)
    | ok html =>
      simp only [hf] at h
      cases he : extractLinks env html url with
      | error e =>
        simp only [he] at h
        cases h
        exact fun x hx => Or.inl (hitems ▸ hx)
      | ok links =>
        simp only [he] at h
        cases h
        intro x hx
        rcases addLinks_items_source domain links q2 x hx with h' | h'
        · exact Or.inl (hitems ▸ h')
        · exact Or.inr h'

lemma bfsLoop_items_source {env : Env} {domain : String} {fuel : Nat} {q qf : Queue}
    (h : bfsLoop env domain fuel q = some qf) :
    ∀ x ∈ qf.items, x ∈ q.items ∨
      ∃ y, (IsSameDomain y domain && !IsStaticAsset y) = true ∧ x = NormalizeURL y := by
  induction fuel generalizing q with
  | zero =>
    cases h
    exact fun x hx => Or.inl hx
  | succ n ih =>
    rw [bfsLoop] at h
    by_cases hg : (q.HasNext && decide (q.Visited < maxPages)) = true
    · rw [if_pos hg] at h
      cases hb : bfsBody env domain q with
      | none => rw [hb] at h; exact absurd h (by simp)
      | some q1 =>
        rw [hb] at h
        intro x hx
        rcases ih h x hx with h' | h'
        · rcases bfsBody_items_source hb x h' with h'' | h''
          · exact Or.inl h''
          · exact Or.inr h''
        · exact Or.inr h'
    · rw [if_neg hg] at h
      cases h
      exact fun x hx => Or.inl hx

lemma discoverFromLinks_source {env : Env} {startURL domain : String} {out : List String}
    (h : discoverFromLinks env startURL domain = some out) :
    ∀ x ∈ out, x = NormalizeURL startURL ∨
      ∃ y, (IsSameDomain y domain && !IsStaticAsset y) = true ∧ x = NormalizeURL y := by
  unfold discoverFromLinks at h
  dsimp only at h
  cases hb : bfsLoop env domain maxPages (NewQueue.Add (NormalizeURL startURL)) with
  | none => rw [hb] at h; exact absurd h (by simp)
  | some qf =>
    rw [hb] at h
    have hout2 : qf.All = out := by simpa using h
    intro x hx
    rw [← hout2] at hx
    rcases bfsLoop_items_source hb x hx with hseed | hy
    · rw [seed_items] at hseed
      exact Or.inl (List.mem_singleton.mp hseed)
    · exact Or.inr hy

/-- C6 counterexample: with the sitemap unavailable and every fetch
failing, crawling from the static-asset seed `https://x.com/a.pdf`
succeeds and returns the seed itself, which `IsStaticAsset` flags:
`discoverFromLinks` enqueues the seed without the asset filter. -/
theorem claim_C6_counterexample :
    DiscoverAll
        { sitemap := fun _ => .error "unavailable",
          fetch := fun _ => .error "unreachable",
          hrefs := fun _ => .error "unused" }
        "https://x.com/a.pdf" =
      some (.ok ["https://x.com/a.pdf"]) ∧
    IsStaticAsset "https://x.com/a.pdf" = true := by
  constructor
  · rfl
  · decide

/-- C6 (amended): every URL returned by a successful `DiscoverAll` call
whose starting URL parses with a nonempty host is the `NormalizeURL`
image of some candidate, is same-domain with respect to the starting
URL's parsed host, and — unless it is the normalized seed itself —
arises from a candidate that passed both the `IsSameDomain` and the
non-`IsStaticAsset` filter.  The seed is exempt from the asset filter
(see the counterexample), and normalization happens after the filter, so
only the pre-normalization candidate is guaranteed non-asset. -/
theorem claim_C6 (env : Env) (baseURL : String) (parsed : URL) (out : List String)
    (hp : parseURL baseURL.data = .ok parsed) (hh : parsed.host ≠ [])
    (hout : DiscoverAll env baseURL = some (.ok out)) :
    ∀ x ∈ out,
      (x = NormalizeURL baseURL ∨
        ∃ y, (IsSameDomain y ⟨parsed.host⟩ && !IsStaticAsset y) = true ∧
          x = NormalizeURL y) ∧
      IsSameDomain x ⟨parsed.host⟩ = true := by
  have hbase : IsSameDomain baseURL ⟨parsed.host⟩ = true := by
    unfold IsSameDomain
    simp only [hp]
    exact beq_self_eq_true _
  have hbfs : ∀ x ∈ out,
      discoverFromLinks env baseURL ⟨parsed.host⟩ = some out →
      (x = NormalizeURL baseURL ∨
        ∃ y, (IsSameDomain y ⟨parsed.host⟩ && !IsStaticAsset y) = true ∧
          x = NormalizeURL y) ∧
      IsSameDomain x ⟨parsed.host⟩ = true := by
    intro x hx hmap
    rcases discoverFromLinks_source hmap x hx with h' | ⟨y, hyf, hyx⟩
    · refine ⟨Or.inl h', ?_⟩
      rw [h']
      exact IsSameDomain_normalize hbase hh
    · refine ⟨Or.inr ⟨y, hyf, hyx⟩, ?_⟩
      rw [hyx]
      exact IsSameDomain_normalize (Bool.and_eq_true_iff.mp hyf).1 hh
  intro x hx
  unfold DiscoverAll at hout
  simp only [hp] at hout
  cases hsm : discoverFromSitemap env (sitemapURLOf parsed) ⟨parsed.host⟩ with
  | ok urls =>
    simp only [hsm] at hout
    by_cases hlen : urls.length > 0
    · rw [if_pos hlen] at hout
      have hurls : urls = out := Except.ok.inj (Option.some.inj hout)
      subst hurls
      unfold discoverFromSitemap at hsm
      cases hs2 : env.sitemap (sitemapURLOf parsed) with
      | error e =>
        rw [hs2] at hsm
        exact absurd hsm (by simp)
      | ok locs =>
        rw [hs2] at hsm
        have hurls2 := Except.ok.inj hsm
        rw [sitemap_foldl, List.nil_append] at hurls2
        rw [← hurls2] at hx
        obtain ⟨y, hyf, hyx⟩ := List.mem_map.mp hx
        have hyfilter : (IsSameDomain y ⟨parsed.host⟩ && !IsStaticAsset y) = true :=
          (List.mem_filter.mp hyf).2
        refine ⟨Or.inr ⟨y, hyfilter, hyx.symm⟩, ?_⟩
        rw [← hyx]
        exact IsSameDomain_normalize (Bool.and_eq_true_iff.mp hyfilter).1 hh
    · rw [if_neg hlen] at hout
      have hmap : discoverFromLinks env baseURL ⟨parsed.host⟩ = some out := by
        cases hd2 : discoverFromLinks env baseURL ⟨parsed.host⟩ with
        | none => rw [hd2] at hout; exact absurd hout (by simp)
        | some l =>
          rw [hd2] at hout
          have h2 : (Except.ok l : Except String (List String)) = .ok out :=
            Option.some.inj hout
          rw [Except.ok.inj h2]
      exact hbfs x hx hmap
  | error e =>
    simp only [hsm] at hout
    have hmap : discoverFromLinks env baseURL ⟨parsed.host⟩ = some out := by
      cases hd2 : discoverFromLinks env baseURL ⟨parsed.host⟩ with
      | none => rw [hd2] at hout; exact absurd hout (by simp)
      | some l =>
        rw [hd2] at hout
        have h2 : (Except.ok l : Except String (List String)) = .ok out :=
          Option.some.inj hout
        rw [Except.ok.inj h2]
    exact hbfs x hx hmap

/-- C6 witness: the amended contract at a concrete crawl in which the
sitemap fails and the seed page links to a same-domain page, an asset,
and a cross-domain page. -/
theorem claim_C6_witness :
    parseURL "https://x.com/".data =
      .ok { emptyURL with scheme := "https".data, host := "x.com".data, path := ['/'] } ∧
    DiscoverAll
        { sitemap := fun _ => .error "unavailable",
          fetch := fun u => if u == "https://x.com/" then .ok "page" else .error "miss",
          hrefs := fun _ => .ok ["https://x.com/docs/", "https://x.com/l.png", "https://y.com/o"] }
        "https://x.com/" =
      some (.ok ["https://x.com/", "https://x.com/docs"]) ∧
    (∀ x ∈ ["https://x.com/", "https://x.com/docs"],
      (x = NormalizeURL "https://x.com/" ∨
        ∃ y, (IsSameDomain y ⟨"x.com".data⟩ && !IsStaticAsset y) = true ∧
          x = NormalizeURL y) ∧
      IsSameDomain x ⟨"x.com".data⟩ = true) := by
  refine ⟨rfl, rfl, ?_⟩
  exact claim_C6
    { sitemap := fun _ => .error "unavailable",
      fetch := fun u => if u == "https://x.com/" then .ok "page" else .error "miss",
      hrefs := fun _ => .ok ["https://x.com/docs/", "https://x.com/l.png", "https://y.com/o"] }
    "https://x.com/"
    { emptyURL with scheme := "https".data, host := "x.com".data, path := ['/'] }
    ["https://x.com/", "https://x.com/docs"] rfl (by decide) rfl

/-! ## Termination of the capped BFS -/

lemma bfsLoop_stable {env : Env} {domain : String} {q : Queue}
    (hg : (q.HasNext && decide (q.Visited < maxPages)) = false) :
    ∀ fuel, bfsLoop env domain fuel q = some q := by
  intro fuel
  cases fuel with
  | zero => rfl
  | succ n => rw [bfsLoop, if_neg (by simp [hg])]

lemma bfsLoop_comp (env : Env) (domain : String) :
    ∀ f1 f2 q, bfsLoop env domain (f1 + f2) q =
      (match bfsLoop env domain f1 q with
        | none => none
        | some q1 => bfsLoop env domain f2 q1) := by
  intro f1
  induction f1 with
  | zero =>
    intro f2 q
    rw [Nat.zero_add]
    rfl
  | succ n ih =>
    intro f2 q
    rw [show n + 1 + f2 = (n + f2) + 1 from by omega]
    rw [bfsLoop]
    by_cases hg : (q.HasNext && decide (q.Visited < maxPages)) = true
    · rw [if_pos hg]
      cases hb : bfsBody env domain q with
      | none =>
        have hr : bfsLoop env domain (n + 1) q = none := by
          rw [bfsLoop, if_pos hg, hb]
        rw [hr]
      | some q1 =>
        have hr : bfsLoop env domain (n + 1) q = bfsLoop env domain n q1 := by
          rw [bfsLoop, if_pos hg, hb]
        rw [hr]
        exact ih f2 q1
    · have hgf : (q.HasNext && decide (q.Visited < maxPages)) = false := by
        revert hg
        cases (q.HasNext && decide (q.Visited < maxPages)) <;> simp
      rw [if_neg hg]
      have hr : bfsLoop env domain (n + 1) q = some q := by
        rw [bfsLoop, if_neg hg]
      rw [hr]
      exact (bfsLoop_stable hgf f2).symm

/-- C2: on every fetch capability presenting a 300-page same-domain
link-cycle graph rooted at the normalized seed, the capped BFS loop
reaches its own exit condition — fuel beyond `maxPages` never changes
the outcome, which is the model's expression of termination — and the
queue's visited count at exit is exactly `maxPages` = 100, never more. -/
theorem claim_C2 (env : Env) (domain startURL : String) (p : Nat → String)
    (hseed : NormalizeURL startURL = p 0)
    (hinj : ∀ i j, i < 300 → j < 300 → p i = p j → i = j)
    (hfetch : ∀ i, i < 300 → ∃ html, env.fetch (p i) = .ok html ∧
      extractLinks env html (p i) = .ok [p ((i + 1) % 300)])
    (hfilter : ∀ i, i < 300 → (IsSameDomain (p i) domain && !IsStaticAsset (p i)) = true)
    (hnorm : ∀ i, i < 300 → NormalizeURL (p i) = p i) :
    ∃ qf, (∀ fuel, maxPages ≤ fuel →
        bfsLoop env domain fuel (NewQueue.Add (NormalizeURL startURL)) = some qf) ∧
      qf.Visited = maxPages ∧
      discoverFromLinks env startURL domain = some qf.All := by
  have hff : ¬(false = true) := by simp
  have hstep : ∀ k, k ≤ 98 →
      bfsBody env domain ⟨(List.range (k + 1)).map p, (List.range (k + 1)).map p, k⟩ =
        some ⟨(List.range (k + 2)).map p, (List.range (k + 2)).map p, k + 1⟩ := by
    intro k hk
    obtain ⟨html, hf, hl⟩ := hfetch k (by omega)
    rw [Nat.mod_eq_of_lt (by omega)] at hl
    have hget : ((List.range (k + 1)).map p).get? k = some (p k) := by
      rw [List.get?_map, List.get?_range (by omega)]
      rfl
    have hnext : Queue.Next ⟨(List.range (k + 1)).map p, (List.range (k + 1)).map p, k⟩ =
        some (p k, ⟨(List.range (k + 1)).map p, (List.range (k + 1)).map p, k + 1⟩) := by
      unfold Queue.Next
      dsimp only
      rw [hget]
    have hcon : ((List.range (k + 1)).map p).contains (p (k + 1)) = false := by
      rw [contains_eq_false_iff]
      intro hmem
      obtain ⟨j, hj, hpj⟩ := List.mem_map.mp hmem
      have hj' : j < k + 1 := List.mem_range.mp hj
      have := hinj j (k + 1) (by omega) (by omega) hpj
      omega
    unfold bfsBody
    rw [hnext]
    dsimp only
    rw [hf]
    dsimp only
    rw [hl]
    dsimp only
    rw [List.foldl_cons, List.foldl_nil]
    rw [if_pos (hfilter (k + 1) (by omega))]
    rw [hnorm (k + 1) (by omega)]
    unfold Queue.Add
    dsimp only
    rw [hcon, if_neg hff]
    simp [List.range_succ]
  have hloop : ∀ j k, k + j = 99 →
      bfsLoop env domain (j + 1) ⟨(List.range (k + 1)).map p, (List.range (k + 1)).map p, k⟩ =
        some ⟨(List.range 100).map p, (List.range 100).map p, 99⟩ := by
    intro j
    induction j with
    | zero =>
      intro k hk
      have hk99 : k = 99 := by omega
      subst hk99
      rw [bfsLoop]
      rw [if_neg (show ¬(((⟨(List.range (99 + 1)).map p, (List.range (99 + 1)).map p,
          99⟩ : Queue).HasNext &&
          decide ((⟨(List.range (99 + 1)).map p, (List.range (99 + 1)).map p,
            99⟩ : Queue).Visited < maxPages)) = true) from by
        simp [Queue.HasNext, Queue.Visited, maxPages])]
    | succ n ih =>
      intro k hk
      rw [bfsLoop]
      rw [if_pos (show ((⟨(List.range (k + 1)).map p, (List.range (k + 1)).map p,
          k⟩ : Queue).HasNext &&
          decide ((⟨(List.range (k + 1)).map p, (List.range (k + 1)).map p,
            k⟩ : Queue).Visited < maxPages)) = true from by
        simp [Queue.HasNext, Queue.Visited, maxPages]
        omega)]
      rw [hstep k (by omega)]
      exact ih (k + 1) (by omega)
  have hq0 : NewQueue.Add (NormalizeURL startURL) =
      ⟨(List.range (0 + 1)).map p, (List.range (0 + 1)).map p, 0⟩ := by
    rw [hseed]
    rfl
  have hmain : ∀ fuel, maxPages ≤ fuel →
      bfsLoop env domain fuel (NewQueue.Add (NormalizeURL startURL)) =
        some ⟨(List.range 100).map p, (List.range 100).map p, 99⟩ := by
    intro fuel hfuel
    obtain ⟨k, rfl⟩ := Nat.exists_eq_add_of_le hfuel
    rw [hq0]
    rw [show maxPages + k = (99 + 1) + k from rfl]
    rw [bfsLoop_comp]
    rw [hloop 99 0 (by omega)]
    exact bfsLoop_stable (by simp [Queue.HasNext, Queue.Visited, maxPages]) k
  refine ⟨⟨(List.range 100).map p, (List.range 100).map p, 99⟩, hmain, ?_, ?_⟩
  · simp [Queue.Visited, maxPages]
  · unfold discoverFromLinks
    dsimp only
    rw [hmain maxPages (Nat.le_refl _)]
    rfl

/-! ## Facts about the concrete 300-page cycle -/

lemma cpath_succ (n : Nat) : cpath (n + 1) = '/' :: 'p' :: List.replicate (n + 1) 'a' := by
  unfold cpath
  rw [if_neg (Nat.succ_ne_zero n)]

lemma cpath_head : ∀ i, (cpath i).head? = some '/'
  | 0 => rfl
  | n + 1 => by rw [cpath_succ]; rfl

lemma mem_cpath {x : Char} {i : Nat} (hx : x ∈ cpath i) : x = '/' ∨ x = 'p' ∨ x = 'a' := by
  cases i with
  | zero =>
    rcases List.mem_singleton.mp hx with h
    exact Or.inl h
  | succ n =>
    rw [cpath_succ] at hx
    rcases List.mem_cons.mp hx with h | hx
    · exact Or.inl h
    · rcases List.mem_cons.mp hx with h | hx
      · exact Or.inr (Or.inl h)
      · exact Or.inr (Or.inr (List.eq_of_mem_replicate hx))

lemma WF_cURL (i : Nat) : WF (cURL i) :=
  { scheme_ok := Or.inr ⟨(by decide : validScheme "https".data = true),
      (by decide : "https".data.map Char.toLower = "https".data)⟩,
    opaque_ok := Or.inl rfl,
    opaque_hash := List.not_mem_nil _,
    opaque_query := List.not_mem_nil _,
    host_slash := (by decide : ('/' : Char) ∉ "x.com".data),
    host_query := (by decide : ('?' : Char) ∉ "x.com".data),
    host_hash := (by decide : ('#' : Char) ∉ "x.com".data),
    host_at := (by decide : ('@' : Char) ∉ "x.com".data),
    user_ok := fun ui h => Option.noConfusion h,
    path_hash := fun hx => by
      rcases mem_cpath hx with h | h | h <;> exact absurd h (by decide),
    path_query := fun hx => by
      rcases mem_cpath hx with h | h | h <;> exact absurd h (by decide),
    query_hash := List.not_mem_nil _,
    fq_ok := fun _ => rfl,
    path_abs := fun _ => Or.inr (cpath_head i),
    path_colon := fun hc => absurd hc.1 (by decide : "https".data ≠ []),
    path_dslash := fun hc => absurd hc.1 (by decide : "https".data ≠ []),
    omit_ok := fun h => absurd h (by decide : ¬(false = true)) }

lemma toStringURL_cURL : ∀ i, toStringURL (cURL i) = "https://x.com".data ++ cpath i
  | 0 => rfl
  | _ + 1 => rfl

lemma parse_cp (i : Nat) : parseURL (cp i).data = .ok (cURL i) := by
  show parseURL (toStringURL (cURL i)) = .ok (cURL i)
  exact parseURL_toString (WF_cURL i)

lemma cp_len : ∀ i, (cp i).data.length = if i = 0 then 14 else 15 + i
  | 0 => by decide
  | n + 1 => by
    show (toStringURL (cURL (n + 1))).length = _
    rw [toStringURL_cURL, cpath_succ]
    rw [if_neg (Nat.succ_ne_zero n)]
    rw [List.length_append]
    rw [show ("https://x.com".data.length) = 13 from rfl]
    simp [List.length_replicate]
    omega

lemma cp_inj {i j : Nat} (h : cp i = cp j) : i = j := by
  have hl := congrArg (fun s => s.data.length) h
  simp only at hl
  rw [cp_len, cp_len] at hl
  by_cases h0 : i = 0 <;> by_cases h1 : j = 0
  · rw [h0, h1]
  · rw [if_pos h0, if_neg h1] at hl; omega
  · rw [if_neg h0, if_pos h1] at hl; omega
  · rw [if_neg h0, if_neg h1] at hl; omega

lemma cnext_cp {i : Nat} (hi : i < 300) : cnext (cp i) = cp ((i + 1) % 300) := by
  unfold cnext
  rw [cp_len]
  by_cases h0 : i = 0
  · subst h0
    simp
  · rw [if_neg h0]
    rw [if_neg (show ¬(15 + i = 14) from by omega)]
    rw [show 15 + i - 14 = i + 1 from by omega]
    by_cases h299 : i + 1 < 300
    · rw [if_pos h299, Nat.mod_eq_of_lt h299]
    · rw [if_neg h299]
      have h300 : i + 1 = 300 := by omega
      rw [h300, Nat.mod_self]

lemma IsSameDomain_cp (i : Nat) : IsSameDomain (cp i) "x.com" = true := by
  unfold IsSameDomain
  simp only [parse_cp]
  rfl

lemma pathExtAux_no_dot : ∀ l acc, '.' ∉ l → pathExtAux l acc = []
  | [], _, _ => rfl
  | c :: rest, acc, h => by
    have hc : c ≠ '.' := fun he => h (by rw [← he]; exact List.mem_cons_self c rest)
    unfold pathExtAux
    by_cases hs : (c == '/') = true
    · rw [if_pos hs]
    · rw [if_neg hs, if_neg (fun hq => hc (beq_iff_eq.mp hq))]
      exact pathExtAux_no_dot rest (c :: acc) (fun hx => h (List.mem_cons_of_mem c hx))

lemma pathExt_no_dot {p : List Char} (h : '.' ∉ p) : pathExt p = [] :=
  pathExtAux_no_dot _ _ (by simpa using h)

lemma IsStaticAsset_cp (i : Nat) : IsStaticAsset (cp i) = false := by
  unfold IsStaticAsset
  simp only [parse_cp]
  rw [pathExt_no_dot (show ('.' : Char) ∉ (cURL i).path from fun hx => by
    rcases mem_cpath hx with h | h | h <;> exact absurd h (by decide))]
  rfl

lemma cpath_no_trailing {i : Nat} (hi : i ≠ 0) : finishesWith ['/'] (cpath i) = false := by
  obtain ⟨n, rfl⟩ := Nat.exists_eq_succ_of_ne_zero hi
  cases hfw : finishesWith ['/'] (cpath (n + 1))
  · rfl
  · obtain ⟨t, ht⟩ := finishesWith_iff.mp hfw
    have h1 : (cpath (n + 1)).getLast? = some 'a' := by
      rw [cpath_succ, List.replicate_succ']
      rw [show ('/' :: 'p' :: (List.replicate n 'a' ++ ['a'])) =
        ('/' :: 'p' :: List.replicate n 'a') ++ ['a'] from rfl]
      exact List.getLast?_concat _
    rw [ht, List.getLast?_concat] at h1
    exact absurd (Option.some.inj h1) (by decide)

lemma normMod_cURL : ∀ i, normMod (cURL i) = cURL i
  | 0 => by decide
  | n + 1 => by
    unfold normMod
    dsimp only
    rw [if_pos (show ((cURL (n + 1)).path != ['/']) = true from by
      rw [show (cURL (n + 1)).path = cpath (n + 1) from rfl, cpath_succ]
      rfl)]
    rw [show (cURL (n + 1)).path = cpath (n + 1) from rfl]
    rw [trimSlashSuffix_of_not_slash (cpath_no_trailing (Nat.succ_ne_zero n))]
    rfl

lemma NormalizeURL_cp (i : Nat) : NormalizeURL (cp i) = cp i := by
  rw [NormalizeURL_eq]
  simp only [parse_cp]
  rw [normMod_cURL]
  rfl

lemma splitOnChar_no_sep {sep : Char} {l : List Char} (h : sep ∉ l) :
    splitOnChar sep l = [l] := by
  induction l with
  | nil => rfl
  | cons c cs ih =>
    have hc : (c == sep) = false :=
      beq_eq_false_iff_ne.mpr (fun he => h (by rw [← he]; exact List.mem_cons_self c cs))
    have ih' := ih (fun hx => h (List.mem_cons_of_mem c hx))
    simp only [splitOnChar]
    rw [ih']
    simp [hc]

lemma splitOnChar_slash_head {l : List Char} (h : '/' ∉ l) :
    splitOnChar '/' ('/' :: l) = [[], l] := by
  have h1 : splitOnChar '/' l = [l] := splitOnChar_no_sep h
  simp only [splitOnChar]
  rw [h1]
  simp

lemma resolvePath_cpath : ∀ i, resolvePath (cpath i) [] = cpath i
  | 0 => by decide
  | n + 1 => by
    have hrest : ('/' : Char) ∉ 'p' :: List.replicate (n + 1) 'a' := by
      intro hx
      rcases List.mem_cons.mp hx with h | h
      · exact absurd h (by decide)
      · exact absurd (List.eq_of_mem_replicate h) (by decide)
    have hsp : splitOnChar '/' ('/' :: 'p' :: List.replicate (n + 1) 'a') =
        [[], 'p' :: List.replicate (n + 1) 'a'] := splitOnChar_slash_head hrest
    rw [cpath_succ]
    unfold resolvePath
    dsimp only
    rw [if_pos (show (([] : List Char) == []) = true from rfl)]
    rw [hsp]
    rfl

lemma ResolveReference_cURL (i j : Nat) : ResolveReference (cURL i) (cURL j) = cURL j := by
  unfold ResolveReference
  dsimp only
  rw [if_pos (show ((cURL j).scheme != [] || (cURL j).host != [] ||
    (cURL j).user.isSome) = true from rfl)]
  rw [if_neg (show ¬(((cURL j).scheme == []) = true) from fun hq => nomatch hq)]
  rw [show (cURL j).path = cpath j from rfl]
  rw [resolvePath_cpath]
  rfl

lemma resolveURL_cp (j i : Nat) : resolveURL (cp j) (cURL i) = cp j := by
  have hdata : (cp j).data = "https://x.com".data ++ cpath j := toStringURL_cURL j
  unfold resolveURL
  rw [hdata]
  have hm : beginsWith "mailto:".data ("https://x.com".data ++ cpath j) = false := rfl
  have hjs : beginsWith "javascript:".data ("https://x.com".data ++ cpath j) = false := rfl
  have hte : beginsWith "tel:".data ("https://x.com".data ++ cpath j) = false := rfl
  have hha : beginsWith "#".data ("https://x.com".data ++ cpath j) = false := rfl
  rw [hm, hjs, hte, hha]
  rw [if_neg (show ¬((false || false || false || false) = true) from by decide)]
  have hp2 : parseURL ("https://x.com".data ++ cpath j) = .ok (cURL j) := by
    have h0 := parse_cp j
    rwa [hdata] at h0
  simp only [hp2]
  rw [ResolveReference_cURL]
  rfl

lemma cp_ne_empty (k : Nat) : (cp k == "") = false := by
  cases hb : (cp k == "")
  · rfl
  · have he : cp k = "" := beq_iff_eq.mp hb
    have hd := congrArg String.data he
    rw [show (cp k).data = "https://x.com".data ++ cpath k from toStringURL_cURL k] at hd
    simp at hd

lemma extractLinks_cenv {i : Nat} (hi : i < 300) :
    extractLinks cenv (cp i) (cp i) = .ok [cp ((i + 1) % 300)] := by
  unfold extractLinks cenv
  dsimp only
  rw [cnext_cp hi]
  simp only [parse_cp]
  rw [List.foldl_cons, List.foldl_nil]
  have e1 : ¬((cp ((i + 1) % 300) == "") = true) := by simp [cp_ne_empty]
  rw [if_neg e1]
  rw [resolveURL_cp]
  have e2 : ((cp ((i + 1) % 300) != "") = true) := by
    simp [bne, cp_ne_empty]
  rw [if_pos e2]
  rfl

/-- C2 witness: the concrete 300-page cycle `cp`/`cenv` satisfies every
hypothesis of the claim, so crawling it from `https://x.com/` stops
with exactly 100 visited URLs. -/
theorem claim_C2_witness :
    ∃ qf, (∀ fuel, maxPages ≤ fuel →
        bfsLoop cenv "x.com" fuel (NewQueue.Add (NormalizeURL "https://x.com/")) = some qf) ∧
      qf.Visited = maxPages ∧
      discoverFromLinks cenv "https://x.com/" "x.com" = some qf.All :=
  claim_C2 cenv "x.com" "https://x.com/" cp
    (by decide)
    (fun _ _ _ _ h => cp_inj h)
    (fun i hi => ⟨cp i, rfl, extractLinks_cenv hi⟩)
    (fun i _ => by rw [IsSameDomain_cp, IsStaticAsset_cp]; rfl)
    (fun i _ => NormalizeURL_cp i)

end PagePipe
